import Mathlib

/-!
Verification development for the PRD PDF-generation pipeline (`src/utils.py`).

The source manipulates Python strings through `re` patterns.  We embed the
relevant operations shallowly over `List Char`: each specific regular
expression used by the source is translated into an explicit scanning
function with the exact backtracking behaviour of the Python engine on that
pattern (leftmost match, greedy `\s+`/`\s*` with fallback, non-greedy
`(.*?)` stopping at the first position where the lookahead succeeds,
`$` matching at end of text and just before a single trailing newline,
`\Z` matching only at the true end).  Python `\s` and `str.strip()` are
modelled on their ASCII whitespace set, which covers the inputs considered
here.
-/

/-- ASCII whitespace, as matched by Python `\s` and stripped by `str.strip()`. -/
def isWs (c : Char) : Bool :=
  c = ' ' || c = '\t' || c = '\n' || c = '\r' || c = '\x0b' || c = '\x0c'

/-- ASCII digit, as matched by Python `\d` on these inputs. -/
def isDigit (c : Char) : Bool :=
  '0' ≤ c && c ≤ '9'

/-- Python `str.strip()`: remove leading and trailing whitespace. -/
def pyStrip (l : List Char) : List Char :=
  ((l.dropWhile isWs).reverse.dropWhile isWs).reverse

/-- Python `s.split('\n')`: split on every newline, keeping empty pieces. -/
def splitNL : List Char → List (List Char)
  | [] => [[]]
  | c :: rest =>
    if c = '\n' then [] :: splitNL rest
    else
      match splitNL rest with
      | l :: ls => (c :: l) :: ls
      | [] => [[c]]

/-- Python `s.split('\n', 1)`: split at the first newline only;
`none` when the string has no newline. -/
def splitFirstNL : List Char → Option (List Char × List Char)
  | [] => none
  | c :: rest =>
    if c = '\n' then some ([], rest)
    else
      match splitFirstNL rest with
      | some (a, b) => some (c :: a, b)
      | none => none

/-- Python `s.split('\n\n')`: split on the two-character separator,
scanning left to right without overlap. -/
def splitNN : List Char → List Char → List (List Char)
  | acc, '\n' :: '\n' :: rest => acc :: splitNN [] rest
  | acc, c :: rest => splitNN (acc ++ [c]) rest
  | acc, [] => [acc]

/-- Python `s.split(sep)` for a one-character separator. -/
def splitChar (sep : Char) : List Char → List (List Char)
  | [] => [[]]
  | c :: rest =>
    if c = sep then [] :: splitChar sep rest
    else
      match splitChar sep rest with
      | l :: ls => (c :: l) :: ls
      | [] => [[c]]

/-- Match a literal string at the head of the input; return the remainder. -/
def litP : List Char → List Char → Option (List Char)
  | [], s => some s
  | _ :: _, [] => none
  | c :: cs, x :: xs => if x = c then litP cs xs else none

/-- Match a literal numeral followed by a literal `'.'`; return the remainder. -/
def parseNumDot (n : List Char) (s : List Char) : Option (List Char) :=
  match litP n s with
  | some (c :: r) => if c = '.' then some r else none
  | _ => none

/-- `True` when the regex fragment `N\.\s` matches at the head of `s`
(the numeral, a period, then at least one whitespace character).  This is
the shape of every "ordinal marker" lookahead in the source. -/
def numDotWs (n : List Char) (s : List Char) : Bool :=
  match parseNumDot n s with
  | some (c :: _) => isWs c
  | _ => false

/-- Greedy `\s*` followed by continuation `k`, with the Python engine's
backtracking: consume as much whitespace as possible, then give characters
back one at a time until `k` succeeds. -/
def wsStarB (k : List Char → Option (List Char)) : List Char → Option (List Char)
  | [] => k []
  | c :: rest =>
    if isWs c then
      match wsStarB k rest with
      | some v => some v
      | none => k (c :: rest)
    else k (c :: rest)

/-- Greedy `\s+` followed by continuation `k` (at least one whitespace
character, then `wsStarB`). -/
def wsPlusB (k : List Char → Option (List Char)) : List Char → Option (List Char)
  | [] => none
  | c :: rest => if isWs c then wsStarB k rest else none

/-- The engine of a non-greedy `(.*?)(?=STOP)` capture: walk forward,
checking the lookahead `stop` on each suffix (longest suffix first, i.e.
left to right); return the captured prefix and the suffix where `stop`
first held. -/
def captureSplit (stop : List Char → Bool) : List Char → List Char × List Char
  | [] => ([], [])
  | c :: rest =>
    if stop (c :: rest) then ([], c :: rest)
    else
      let p := captureSplit stop rest
      (c :: p.1, p.2)

/-- The captured text of a non-greedy capture (first component of
`captureSplit`). -/
def captureUpTo (stop : List Char → Bool) (s : List Char) : List Char :=
  (captureSplit stop s).1

/-- Python `$` (without `re.MULTILINE`): matches at the end of the text and
just before a single trailing newline. -/
def dollarAt : List Char → Bool
  | [] => true
  | [c] => c = '\n'
  | _ => false

/-- The lookahead `(?=\n|$)`: stop at a newline or at the end of the text. -/
def lineStop : List Char → Bool
  | [] => true
  | c :: _ => c = '\n'

/-- The decimal numeral of an ordinal, as interpolated into the source's
f-string patterns. -/
def numeralC (i : Nat) : List Char :=
  (Nat.repr i).data

/-- `get_default_section_title` (src/utils.py:226-246): the canonical
default title for a section key, with the generic fallback. -/
def get_default_section_title (k : List Char) : List Char :=
  if k = "1".data then "Introduction".data
  else if k = "2".data then "Goals and Objectives".data
  else if k = "3".data then "User Personas and Roles".data
  else if k = "4".data then "Functional Requirements".data
  else if k = "5".data then "Non-Functional Requirements".data
  else if k = "6".data then "User Interface (UI) / User Experience (UX) Considerations".data
  else if k = "7".data then "Data Requirements".data
  else if k = "8".data then "System Architecture & Technical Considerations".data
  else if k = "9".data then "Release Criteria & Success Metrics".data
  else if k = "10".data then "Timeline & Milestones".data
  else if k = "11".data then "Team Structure".data
  else if k = "12".data then "User Stories".data
  else if k = "13".data then "Cost Estimation".data
  else if k = "14".data then "Open Issues & Future Considerations".data
  else if k = "15".data then "Appendix".data
  else if k = "16".data then "Points Requiring Further Clarification".data
  else "Section ".data ++ k

/-- The canonical default title of ordinal `i`. -/
def titleC (i : Nat) : List Char :=
  get_default_section_title (numeralC i)

/-- The lookahead `(?={i+1}\.\s+|$)` used to delimit the capture of section
`i` in `parse_and_add_content` (src/utils.py:157,164). -/
def stopStrict (i : Nat) (s : List Char) : Bool :=
  numDotWs (numeralC (i + 1)) s || dollarAt s

/-- The prefix of the strict pattern
`{i}\.\s+{re.escape(title_i)}` at the head of `s`
(src/utils.py:157); returns the remainder after the title. -/
def parseStrict (i : Nat) (s : List Char) : Option (List Char) :=
  match parseNumDot (numeralC i) s with
  | some r => wsPlusB (litP (titleC i)) r
  | none => none

/-- `re.search` of the strict section pattern (src/utils.py:157-159):
scan positions left to right, and at the leftmost position where the
prefix matches, capture `(.*?)` up to the `{i+1}\.\s+|$` lookahead. -/
def searchStrict (i : Nat) : List Char → Option (List Char)
  | [] => none
  | s@(_ :: rest) =>
    match parseStrict i s with
    | some r => some (captureUpTo (stopStrict i) r)
    | none => searchStrict i rest

/-- `re.search` of the loose fallback pattern `{i}\.\s+(.*?)(?={i+1}\.\s+|$)`
(src/utils.py:164-165); the stored value is `match.group(0)`, so the
numeral, the period, the matched whitespace run and the capture. -/
def searchLoose (i : Nat) : List Char → Option (List Char)
  | [] => none
  | s@(_ :: rest) =>
    match parseNumDot (numeralC i) s with
    | some (c :: r) =>
      if isWs c then
        some (numeralC i ++ '.' :: ((c :: r).takeWhile isWs ++
          captureUpTo (stopStrict i) ((c :: r).dropWhile isWs)))
      else searchLoose i rest
    | _ => searchLoose i rest

/-- The placeholder value stored when both patterns fail
(src/utils.py:170). -/
def placeholderC (i : Nat) : List Char :=
  numeralC i ++ ". ".data ++ titleC i ++ "\n\nNo content provided for this section.".data

/-- One iteration of the extraction loop (src/utils.py:155-170): strict
pattern first (stored re-titled with a single space), then the loose
pattern (stored as `group(0)`), then the placeholder. -/
def sectionRawC (i : Nat) (content : List Char) : List Char :=
  match searchStrict i content with
  | some cap => numeralC i ++ '.' :: ' ' :: (titleC i ++ cap)
  | none =>
    match searchLoose i content with
    | some g0 => g0
    | none => placeholderC i

/-- `re.match(rf'{k}\.\s+(.*?)(?=\n|$)', raw)` (src/utils.py:177):
anchored title extraction from a stored section string. -/
def titleParse (k : List Char) (s : List Char) : Option (List Char) :=
  match parseNumDot k s with
  | some r => wsPlusB (fun s' => some (captureUpTo lineStop s')) r
  | none => none

/-- The section title used for the heading (src/utils.py:178): the anchored
match's capture, or the canonical default on failure. -/
def titleOfK (k : List Char) (raw : List Char) : List Char :=
  match titleParse k raw with
  | some t => t
  | none => get_default_section_title k

/-- The section body (src/utils.py:184-186): everything after the first
newline of the stored string, stripped; empty when there is no newline. -/
def bodyOfRaw (raw : List Char) : List Char :=
  match splitFirstNL raw with
  | some (_, rest) => pyStrip rest
  | none => []

/-- Python `dict` assignment `d[k] = v`: overwrite in place when the key
exists, append otherwise (insertion order preserved). -/
def dictInsert {κ α : Type} [DecidableEq κ] :
    List (κ × α) → κ → α → List (κ × α)
  | [], k, v => [(k, v)]
  | (k', v') :: t, k, v =>
    if k' = k then (k', v) :: t else (k', v') :: dictInsert t k v

/-- Python `d.get(k)` on the association-list model of a `dict`. -/
def dictLookup {κ α : Type} [DecidableEq κ] (d : List (κ × α)) (k : κ) : Option α :=
  (d.find? (fun p => p.1 = k)).map (fun p => p.2)

/-- The `sections` dictionary built by the loop of
`parse_and_add_content` (src/utils.py:152-170), keyed by `str(i)`. -/
def sectionsDictC (content : List Char) : List (List Char × List Char) :=
  (List.range' 1 16).foldl (fun d i => dictInsert d (numeralC i) (sectionRawC i content)) []

/-- The per-section data recovered by the processing loop
(src/utils.py:173-188): key, heading title, and stripped body.  The keys
are inserted in increasing numeric order, so Python's
`sorted(sections.keys(), key=int)` visits them in insertion order. -/
def sectionsDataC (content : List Char) : List (List Char × List Char × List Char) :=
  (sectionsDictC content).map (fun p => (p.1, titleOfK p.1 p.2, bodyOfRaw p.2))

/-- The content blocks appended to the `story` (cover, TOC, headings,
paragraphs, bullet lists, tables, spacers, page breaks).  Styling constants
attached by the source are external rendering data and are not modelled. -/
inductive Block where
  | paragraph : String → Block
  | bulletList : List String → Block
  | table : List (List String) → Block
  | spacer : Block
  | pageBreak : Block
  deriving DecidableEq, Repr

/-- Whether a block is a `Table` block. -/
def Block.isTable : Block → Bool
  | .table _ => true
  | _ => false

/-- `re.search(r'^\s*[\-\*]\s', content, re.MULTILINE)` (src/utils.py:311):
at a line start (position 0 or just after a newline), skip whitespace
(which may itself cross newlines), then a `-` or `*` marker followed by one
whitespace character. -/
def bulletAt : List Char → Bool
  | [] => false
  | c :: rest =>
    if isWs c then bulletAt rest
    else
      (c = '-' || c = '*') &&
        (match rest with
         | d :: _ => isWs d
         | [] => false)

/-- Scan every position of the text, testing `bulletAt` at line starts. -/
def mixedFlagAux : Bool → List Char → Bool
  | _, [] => false
  | ls, s@(c :: rest) => (ls && bulletAt s) || mixedFlagAux (c = '\n') rest

/-- The classifier of `add_content_with_formatting` (src/utils.py:311). -/
def mixedFlag (content : List Char) : Bool :=
  mixedFlagAux true content

/-- The per-line bullet test inside the mixed-mode loop
(src/utils.py:320): the stripped line starts with `-` or `*`, with no
whitespace requirement after the marker. -/
def isBulletLine : List Char → Bool
  | [] => false
  | c :: _ => c = '-' || c = '*'

/-- `line[1:].strip()` (src/utils.py:328): the bullet item text. -/
def itemOf (t : List Char) : List Char :=
  pyStrip t.tail

/-- The mixed-mode loop of `add_content_with_formatting`
(src/utils.py:312-346), carried functionally: `items` is the pending
bullet buffer, `paras` the pending paragraph buffer; transitions flush the
opposite buffer, and both are flushed at the end (bullets first). -/
def mixedGo : List (List Char) → List (List Char) → List (List Char) → List Block
  | [], items, paras =>
    (if items = [] then [] else [.bulletList (items.map String.mk)]) ++
      paras.map (fun p => .paragraph (String.mk p))
  | l :: rest, items, paras =>
    let t := pyStrip l
    if t = [] then mixedGo rest items paras
    else if isBulletLine t then
      paras.map (fun p => Block.paragraph (String.mk p)) ++ mixedGo rest (items ++ [itemOf t]) []
    else
      (if items = [] then [] else [Block.bulletList (items.map String.mk)]) ++
        mixedGo rest [] (paras ++ [t])

/-- `add_content_with_formatting` (src/utils.py:308-352) on the character
list: mixed bullet/paragraph mode when the classifier fires, otherwise one
paragraph per non-blank chunk between blank lines. -/
def addContentC (content : List Char) : List Block :=
  if mixedFlag content then mixedGo (splitNL content) [] []
  else
    (splitNN [] content).foldr
      (fun p acc => if pyStrip p = [] then acc else Block.paragraph (String.mk (pyStrip p)) :: acc) []

/-- `add_content_with_formatting` on strings. -/
def add_content_with_formatting (content : String) : List Block :=
  addContentC content.data

/-- One loop iteration of `add_functional_requirements_table`
(src/utils.py:363-372): strip the line; an `FR` line with a `"|"` yields a
row of its first four trimmed cells when at least four result; an `ID`
header line with a `"|"` is explicitly skipped; anything else is ignored. -/
def frStep (rows : List (List String)) (l : List Char) : List (List String) :=
  let t := pyStrip l
  if ("FR".data).isPrefixOf t && t.contains '|' then
    let cells := (splitChar '|' t).map (fun c => String.mk (pyStrip c))
    if 4 ≤ cells.length then rows ++ [cells.take 4] else rows
  else if ("ID".data).isPrefixOf t && t.contains '|' then rows
  else rows

/-- The row list built by `add_functional_requirements_table`
(src/utils.py:354-376): fixed header row, the scanned data rows, and a
placeholder row appended when only the header is present. -/
def frRows (content : List Char) : List (List String) :=
  frFinish ((splitNL content).foldl frStep
    [["ID", "Requirement Description", "Priority", "Dependencies"]])
where
  frFinish (rows : List (List String)) : List (List String) :=
    if rows.length = 1 then rows ++ [["FR01", "Placeholder requirement", "High", "-"]] else rows

/-- `add_functional_requirements_table` appends one `Table` block built
from `frRows` (src/utils.py:379-390). -/
def add_functional_requirements_table (content : String) : Block :=
  Block.table (frRows content.data)

/-- `[^\n]+` (greedy): at least one non-newline character, captured up to
the next newline or the end of the text. -/
def lineCapture (s : List Char) : Option (List Char) :=
  match s with
  | c :: _ => if c = '\n' then none else some (captureUpTo lineStop s)
  | [] => none

/-- `:?\s*([^\n]+)` after the literal, with the engine's backtracking:
prefer consuming a colon, prefer a longer whitespace run. -/
def prdMatchAt (s : List Char) : Option (List Char) :=
  match s with
  | ':' :: r =>
    (match wsStarB lineCapture r with
     | some cap => some cap
     | none => wsStarB lineCapture s)
  | _ => wsStarB lineCapture s

/-- `re.search(r"Product Requirements Document:?\s*([^\n]+)", content)`
(src/utils.py:143): leftmost position where the literal matches and the
suffix completes. -/
def prdSearch : List Char → Option (List Char)
  | [] => none
  | s@(_ :: rest) =>
    match litP ("Product Requirements Document".data) s with
    | some r =>
      (match prdMatchAt r with
       | some cap => some cap
       | none => prdSearch rest)
    | none => prdSearch rest

/-- `extract_project_name` (src/utils.py:141-147): the stripped capture,
or the fixed default literal when the pattern finds no match. -/
def extract_project_name (content : String) : String :=
  match prdSearch content.data with
  | some cap => String.mk (pyStrip cap)
  | none => "Project Requirements Document"

/-- The lookahead `(?=\d+\.\d+|\Z)` of the subsection pattern
(src/utils.py:253): a digit run, a period and a digit — or the true end of
the text. -/
def subStop : List Char → Bool
  | [] => true
  | s@(_ :: _) =>
    (s.takeWhile isDigit) ≠ [] &&
      (match s.dropWhile isDigit with
       | '.' :: c :: _ => isDigit c
       | _ => false)

/-- One match attempt of `(\d+)\.(\d+)\s+(.*?)(?=\d+\.\d+|\Z)`
(src/utils.py:253) at the head of `s`: returns the minor ordinal
`group(2)`, the whole match `group(0)`, and the remainder of the text. -/
def parseSub (s : List Char) : Option (List Char × List Char × List Char) :=
  let d1 := s.takeWhile isDigit
  if d1 = [] then none
  else
    match s.dropWhile isDigit with
    | '.' :: r =>
      let d2 := r.takeWhile isDigit
      if d2 = [] then none
      else
        match r.dropWhile isDigit with
        | c :: r2 =>
          if isWs c then
            let w := (c :: r2).takeWhile isWs
            let r3 := (c :: r2).dropWhile isWs
            let p := captureSplit subStop r3
            some (d2, d1 ++ '.' :: (d2 ++ w ++ p.1), p.2)
          else none
        | [] => none
    | _ => none

theorem captureSplit_snd_length (stop : List Char → Bool) (s : List Char) :
    (captureSplit stop s).2.length ≤ s.length := by
  induction s with
  | nil => simp [captureSplit]
  | cons c rest ih =>
    simp only [captureSplit]
    split
    · simp
    · simpa using Nat.le_succ_of_le ih

theorem length_dropWhile_le (p : Char → Bool) (l : List Char) :
    (l.dropWhile p).length ≤ l.length :=
  (List.dropWhile_suffix p).sublist.length_le

theorem parseSub_length {s : List Char} {g2 g0 rest : List Char}
    (h : parseSub s = some (g2, g0, rest)) : rest.length < s.length := by
  unfold parseSub at h
  by_cases h1 : s.takeWhile isDigit = []
  · simp [h1] at h
  · simp only [h1, if_neg, ite_false] at h
    split at h
    next r hr =>
      by_cases h2 : r.takeWhile isDigit = []
      · simp [h2] at h
      · simp only [h2, ite_false] at h
        split at h
        next c r2 hr2 =>
          by_cases h3 : isWs c
          · simp only [h3, if_true, Option.some.injEq] at h
            have hrest : rest = (captureSplit subStop ((c :: r2).dropWhile isWs)).2 := by
              simp only [Prod.mk.injEq] at h
              exact h.2.2.symm
            have hlen1 : ((c :: r2).dropWhile isWs).length ≤ (c :: r2).length :=
              length_dropWhile_le _ _
            have hlen2 := captureSplit_snd_length subStop ((c :: r2).dropWhile isWs)
            have hsr : r.length < s.length := by
              have hdw : (s.dropWhile isDigit).length ≤ s.length := length_dropWhile_le _ _
              rw [hr] at hdw
              simpa using Nat.lt_of_lt_of_le (by simp) hdw
            have hr2r : (c :: r2).length ≤ r.length := by
              have hdw : (r.dropWhile isDigit).length ≤ r.length := length_dropWhile_le _ _
              rw [hr2] at hdw
              exact hdw
            calc rest.length ≤ ((c :: r2).dropWhile isWs).length := hrest ▸ hlen2
              _ ≤ (c :: r2).length := hlen1
              _ ≤ r.length := hr2r
              _ < s.length := hsr
          · simp [h3] at h
        next => exact absurd h (by simp)
    next heq => exact absurd h (by simp)

/-- The scan of `re.finditer` with explicit fuel (each step strictly
shrinks the text, by `parseSub_length`, so `length + 1` fuel always
suffices; see `subFind_eq`). -/
def subFindF : Nat → List Char → List (List Char × List Char)
  | 0, _ => []
  | Nat.succ fuel, s =>
    match parseSub s with
    | some (g2, g0, rest) => (g2, g0) :: subFindF fuel rest
    | none =>
      match s with
      | [] => []
      | _ :: t => subFindF fuel t

/-- `re.finditer` of the subsection pattern (src/utils.py:254): scan left
to right; after each match resume at the end of `group(0)`. -/
def subFind (s : List Char) : List (List Char × List Char) :=
  subFindF (s.length + 1) s

theorem subFindF_congr : ∀ (f1 : Nat) (s : List Char) (f2 : Nat),
    s.length < f1 → s.length < f2 → subFindF f1 s = subFindF f2 s := by
  intro f1
  induction f1 with
  | zero => intro s f2 h1 _; omega
  | succ f ih =>
    intro s f2 h1 h2
    cases f2 with
    | zero => omega
    | succ f2' =>
      cases hp : parseSub s with
      | some p =>
        obtain ⟨g2, g0, rest⟩ := p
        have hlen := parseSub_length hp
        simp only [subFindF, hp]
        rw [ih rest f2' (by omega) (by omega)]
      | none =>
        cases s with
        | nil => rfl
        | cons c t =>
          simp only [List.length_cons] at h1 h2
          simp only [subFindF, hp]
          exact ih t f2' (by omega) (by omega)

/-- The natural one-step unfolding of the `finditer` scan. -/
theorem subFind_eq (s : List Char) :
    subFind s =
      match parseSub s with
      | some (g2, g0, rest) => (g2, g0) :: subFind rest
      | none =>
        match s with
        | [] => []
        | _ :: t => subFind t := by
  cases hp : parseSub s with
  | some p =>
    obtain ⟨g2, g0, rest⟩ := p
    have hlen := parseSub_length hp
    have h2 : subFindF (s.length + 1) s = (g2, g0) :: subFindF s.length rest := by
      simp only [subFindF, hp]
    have h3 : subFindF s.length rest = subFindF (rest.length + 1) rest :=
      subFindF_congr s.length rest (rest.length + 1) (by omega) (by omega)
    show subFindF (s.length + 1) s = _
    rw [h2, h3]
    rfl
  | none =>
    cases s with
    | nil => rfl
    | cons c t =>
      have h2 : subFindF (t.length + 1 + 1) (c :: t) = subFindF (t.length + 1) t := by
        simp only [subFindF, hp]
      exact h2

/-- `extract_subsections` (src/utils.py:248-262): a dict keyed by the
minor ordinal `group(2)`, each match overwriting the previous value at
its key. -/
def extract_subsections (content : String) : List (List Char × List Char) :=
  (subFind content.data).foldl (fun d p => dictInsert d p.1 p.2) []

/-- `create_cover_page` (src/utils.py:96-104); the generation date is
captured once per build and passed in here as `dateStr`. -/
def create_cover_page (projectName dateStr : String) : List Block :=
  [.paragraph "Product Requirements Document:", .paragraph projectName, .spacer,
   .paragraph ("Generated on: " ++ dateStr), .spacer]

/-- The fixed TOC entry list (src/utils.py:111-128). -/
def tocEntries : List String :=
  ["Introduction", "Goals and Objectives", "User Personas and Roles",
   "Functional Requirements", "Non-Functional Requirements",
   "User Interface (UI) / User Experience (UX) Considerations",
   "Data Requirements", "System Architecture & Technical Considerations",
   "Release Criteria & Success Metrics", "Timeline & Milestones",
   "Team Structure", "User Stories", "Cost Estimation",
   "Open Issues & Future Considerations", "Appendix",
   "Points Requiring Further Clarification"]

/-- `create_table_of_contents` (src/utils.py:106-131). -/
def create_table_of_contents : List Block :=
  Block.paragraph "Table of Contents" :: Block.spacer ::
    (List.zip (List.range' 1 16) tocEntries).map
      (fun p => Block.paragraph (Nat.repr p.1 ++ ". " ++ p.2))

/-- The blocks appended for one stored section (src/utils.py:180-191):
the heading paragraph, then the formatted body when it is non-empty, then
a spacer. -/
def sectionStory (p : List Char × List Char) : List Block :=
  Block.paragraph (String.mk (p.1 ++ '.' :: ' ' :: titleOfK p.1 p.2)) ::
    ((if bodyOfRaw p.2 = [] then [] else addContentC (bodyOfRaw p.2)) ++ [Block.spacer])

/-- `parse_and_add_content` (src/utils.py:149-191) as the block sequence it
appends to the story. -/
def parse_and_add_content (content : String) : List Block :=
  (sectionsDictC content.data).foldr (fun p acc => sectionStory p ++ acc) []

/-- `generate` (src/utils.py:392-414) as the full story handed to the
external renderer: cover page, table of contents, page break, and the
sixteen parsed sections. -/
def generate (dateStr content : String) : List Block :=
  create_cover_page (extract_project_name content) dateStr ++
    create_table_of_contents ++ [Block.pageBreak] ++ parse_and_add_content content

/-! ### Claim-side characterizations -/

/-- Claim-side (C7): a line contributes a data row iff, after trimming, it
starts with `"FR"`, contains a `"|"`, and splitting on `"|"` with each cell
trimmed yields at least four cells; the row is then its first four cells. -/
def frDataRow (l : List Char) : Option (List String) :=
  let t := pyStrip l
  if ("FR".data).isPrefixOf t && t.contains '|' then
    let cells := (splitChar '|' t).map (fun c => String.mk (pyStrip c))
    if 4 ≤ cells.length then some (cells.take 4) else none
  else none

/-- Claim-side (C7): the data rows in input line order. -/
def frDataRows (content : List Char) : List (List String) :=
  (splitNL content).filterMap frDataRow

theorem frFold_eq (ls : List (List Char)) : ∀ init,
    ls.foldl frStep init = init ++ ls.filterMap frDataRow := by
  induction ls with
  | nil => intro init; simp
  | cons l rest ih =>
    intro init
    simp only [List.foldl_cons, List.filterMap_cons]
    by_cases h1 : ("FR".data) <+: pyStrip l ∧ '|' ∈ pyStrip l
    · by_cases h2 : 4 ≤ (splitChar '|' (pyStrip l)).length
      · simp [frStep, frDataRow, h1, h2, ih]
      · simp [frStep, frDataRow, h1, h2, ih]
    · simp [frStep, frDataRow, h1, ih]

/-- Claim C7: the functional-requirements table always has the fixed header
as row 0; a line contributes a data row exactly under the trimmed
`FR`-prefix / pipe / at-least-four-cells condition, keeping the first four
trimmed cells in input line order; `ID` header lines contribute nothing;
and the single placeholder row is appended exactly when no data row was
found. -/
theorem c7_fr_table_rows (content : String) :
    frRows content.data =
      ["ID", "Requirement Description", "Priority", "Dependencies"] ::
        (if frDataRows content.data = []
         then [["FR01", "Placeholder requirement", "High", "-"]]
         else frDataRows content.data) := by
  unfold frRows
  rw [frFold_eq]
  cases h : frDataRows content.data with
  | nil =>
    simp only [frDataRows] at h
    simp [frRows.frFinish, frDataRows, h]
  | cons r rs =>
    simp only [frDataRows] at h
    simp [frRows.frFinish, frDataRows, h]

theorem dictLookup_cons {κ α : Type} [DecidableEq κ] (p : κ × α) (t : List (κ × α)) (k : κ) :
    dictLookup (p :: t) k = if p.1 = k then some p.2 else dictLookup t k := by
  by_cases h : p.1 = k <;> simp [dictLookup, List.find?, h]

theorem dictInsert_lookup {κ α : Type} [DecidableEq κ] (d : List (κ × α)) (k k' : κ) (v : α) :
    dictLookup (dictInsert d k v) k' = if k = k' then some v else dictLookup d k' := by
  induction d with
  | nil =>
    show dictLookup [(k, v)] k' = _
    rw [dictLookup_cons]
  | cons p t ih =>
    by_cases hp : p.1 = k
    · simp only [dictInsert, hp, if_true]
      rw [dictLookup_cons, dictLookup_cons]
      by_cases h : k = k'
      · simp [hp, h]
      · have hne : ¬p.1 = k' := fun hh => h (hp ▸ hh)
        simp [hp, hne, h]
    · simp only [dictInsert, hp, if_false]
      rw [dictLookup_cons, dictLookup_cons, ih]
      by_cases hq : p.1 = k'
      · have hne : ¬k = k' := fun hh => hp (hq.symm ▸ hh.symm ▸ rfl)
        simp [hq, hne]
      · simp [hq]

theorem getLast?_cons_my {α : Type} (a : α) (l : List α) :
    (a :: l).getLast? =
      match l.getLast? with
      | some x => some x
      | none => some a := by
  cases h : l.getLast? with
  | some x =>
    cases l with
    | nil => simp at h
    | cons b t => rw [List.getLast?_cons_cons, h]
  | none =>
    have : l = [] := List.getLast?_eq_none_iff.mp h
    subst this
    rfl

theorem dict_foldl_lookup {κ α : Type} [DecidableEq κ] (l : List (κ × α)) :
    ∀ (d : List (κ × α)) (k : κ),
      dictLookup (l.foldl (fun d p => dictInsert d p.1 p.2) d) k =
        match (l.filter (fun p => decide (p.1 = k))).getLast? with
        | some p => some p.2
        | none => dictLookup d k := by
  induction l with
  | nil => intro d k; simp
  | cons p rest ih =>
    intro d k
    simp only [List.foldl_cons]
    rw [ih]
    rw [List.filter_cons]
    by_cases hk : p.1 = k
    · simp only [hk, decide_true_eq_true]
      rw [if_pos (by simp)]
      rw [getLast?_cons_my]
      cases hlast : (rest.filter (fun p => decide (p.1 = k))).getLast? with
      | some q => rfl
      | none => simp [dictInsert_lookup, hk]
    · rw [if_neg (by simp [hk])]
      cases hlast : (rest.filter (fun p => decide (p.1 = k))).getLast? with
      | some q => rfl
      | none => simp [dictInsert_lookup, hk]

theorem dictInsert_keys {κ α : Type} [DecidableEq κ] (d : List (κ × α)) (k : κ) (v : α) :
    (dictInsert d k v).map Prod.fst =
      if k ∈ d.map Prod.fst then d.map Prod.fst else d.map Prod.fst ++ [k] := by
  induction d with
  | nil => simp [dictInsert]
  | cons p t ih =>
    by_cases hp : p.1 = k
    · simp [dictInsert, hp]
    · simp only [dictInsert, hp, if_false, List.map_cons, List.mem_cons]
      rw [ih]
      by_cases hm : k ∈ t.map Prod.fst
      · simp [hm, hp]
      · have hne : ¬k = p.1 := fun hh => hp hh.symm
        simp [hm, hne]

theorem dictInsert_keys_nodup {κ α : Type} [DecidableEq κ] (d : List (κ × α)) (k : κ) (v : α)
    (h : (d.map Prod.fst).Nodup) : ((dictInsert d k v).map Prod.fst).Nodup := by
  rw [dictInsert_keys]
  by_cases hm : k ∈ d.map Prod.fst
  · simpa [hm] using h
  · simp only [hm, if_false]
    simpa [List.nodup_append, hm] using h

theorem dict_foldl_keys_nodup {κ α : Type} [DecidableEq κ] (l : List (κ × α)) :
    ∀ d : List (κ × α), (d.map Prod.fst).Nodup →
      (((l.foldl (fun d p => dictInsert d p.1 p.2) d)).map Prod.fst).Nodup := by
  induction l with
  | nil => intro d h; simpa using h
  | cons p rest ih =>
    intro d h
    simp only [List.foldl_cons]
    exact ih _ (dictInsert_keys_nodup d p.1 p.2 h)

/-- Claim C10: the subsection-extraction result is keyed by the minor
ordinal alone: its keys are duplicate-free; looking up a minor ordinal
yields the `group(0)` of the *last* match with that minor ordinal (later
captures overwrite earlier ones); and on the body
`"1.1 A\n2.1 B"`, which has two markers sharing minor ordinal 1, the
result has a single entry holding the later capture `"2.1 B"` even though
the scan found two matches. -/
theorem c10_subsections_keyed_by_minor_only :
    (∀ body : String, ((extract_subsections body).map Prod.fst).Nodup) ∧
    (∀ (body : String) (k : List Char),
      dictLookup (extract_subsections body) k =
        match ((subFind body.data).filter (fun p => decide (p.1 = k))).getLast? with
        | some p => some p.2
        | none => none) ∧
    extract_subsections "1.1 A\n2.1 B" = [("1".data, "2.1 B".data)] ∧
    (subFind ("1.1 A\n2.1 B").data).length = 2 := by
  refine ⟨?_, ?_, by decide, by decide⟩
  · intro body
    exact dict_foldl_keys_nodup (subFind body.data) [] (by simp)
  · intro body k
    rw [show extract_subsections body =
        (subFind body.data).foldl (fun d p => dictInsert d p.1 p.2) [] from rfl]
    rw [dict_foldl_lookup]
    cases ((subFind body.data).filter (fun p => decide (p.1 = k))).getLast? with
    | some q => rfl
    | none => rfl

/-- The literal of the title-extraction pattern (src/utils.py:143). -/
def prdLit : List Char := "Product Requirements Document".data

/-- Whether a literal occurs anywhere in the text. -/
def litOccurs (lit : List Char) : List Char → Bool
  | [] => false
  | s@(_ :: t) => (litP lit s).isSome || litOccurs lit t

/-- Claim-side (C5): the line contains the literal followed by an optional
colon and a non-empty (after trimming) trailing title on the same line. -/
def lineSameLineTitle : List Char → Bool
  | [] => false
  | s@(_ :: t) =>
    (match litP prdLit s with
     | some (':' :: r2) => !(pyStrip r2).isEmpty
     | some r => !(pyStrip r).isEmpty
     | none => false) || lineSameLineTitle t

/-- Claim C5 counterexample: in
`"Product Requirements Document\nAcme"` no line carries a trailing title
on the same line as the header literal (with or without a colon), so the
claim requires the fixed default `"Project Requirements Document"` (or an
empty capture) — but the code's `\s*` crosses the newline and the function
returns `"Acme"`, taken from the following line. -/
theorem c5_counterexample :
    (∀ l ∈ splitNL ("Product Requirements Document\nAcme").data,
      lineSameLineTitle l = false) ∧
    extract_project_name "Product Requirements Document\nAcme" = "Acme" ∧
    ("Acme" : String) ≠ "Project Requirements Document" ∧
    ("Acme" : String) ≠ "" := by
  refine ⟨by decide, by decide, by decide, by decide⟩

/-- Claim C5 (amended): title extraction returns the stripped capture of
the leftmost match of the literal followed by an optional colon, a
whitespace run that may span line breaks, and a non-empty run of
non-newline characters — so the returned title can come from a later line;
when the literal does not occur at all it returns the fixed default
literal.  The two examples of the claim behave as stated. -/
theorem c5_amended :
    (∀ content : String, litOccurs prdLit content.data = false →
      extract_project_name content = "Project Requirements Document") ∧
    extract_project_name "Product Requirements Document: Acme Portal\nrest of text" = "Acme Portal" ∧
    extract_project_name "no such header" = "Project Requirements Document" ∧
    extract_project_name "Product Requirements Document\nAcme" = "Acme" := by
  refine ⟨?_, by decide, by decide, by decide⟩
  intro content h
  unfold extract_project_name
  suffices hs : prdSearch content.data = none by rw [hs]
  generalize content.data = s at h ⊢
  induction s with
  | nil => rfl
  | cons c t ih =>
    simp only [litOccurs, Bool.or_eq_false_iff] at h
    obtain ⟨h1, h2⟩ := h
    simp only [prdSearch]
    cases hl : litP ("Product Requirements Document".data) (c :: t) with
    | some r =>
      have hl' : litP prdLit (c :: t) = some r := hl
      rw [hl'] at h1; simp at h1
    | none => exact ih h2

/-- Witness for the amended C5 at a concrete input without the literal. -/
theorem c5_amended_witness :
    extract_project_name "nothing relevant here" = "Project Requirements Document" :=
  c5_amended.1 "nothing relevant here" (by decide)

/-! ### Capture-boundary characterization (C6, C8) -/

theorem litP_iff (n : List Char) : ∀ s r, litP n s = some r ↔ s = n ++ r := by
  induction n with
  | nil =>
    intro s r
    simp [litP, eq_comm]
  | cons c cs ih =>
    intro s r
    cases s with
    | nil => simp [litP]
    | cons x xs =>
      by_cases h : x = c
      · subst h
        simp [litP, ih]
      · simp [litP, h]

theorem parseNumDot_iff (n s r : List Char) :
    parseNumDot n s = some r ↔ s = n ++ '.' :: r := by
  unfold parseNumDot
  constructor
  · intro h
    cases hl : litP n s with
    | none => rw [hl] at h; exact absurd h (by simp)
    | some u =>
      rw [hl] at h
      cases u with
      | nil => simp at h
      | cons d du =>
        simp only at h
        by_cases hd : d = '.'
        · rw [if_pos hd] at h
          have hdu : du = r := by simpa using h
          subst hdu
          subst hd
          exact (litP_iff n s ('.' :: du)).mp hl
        · rw [if_neg hd] at h
          exact absurd h (by simp)
  · intro h
    subst h
    rw [(litP_iff n _ ('.' :: r)).mpr rfl]
    simp

/-- Claim-side (C6, C8): the regex marker `{j}\.\s` holds at a suffix. -/
def markerSpec (j : Nat) (t : List Char) : Prop :=
  ∃ c w, t = numeralC j ++ '.' :: c :: w ∧ isWs c = true

/-- Claim-side (C6, C8): the lookahead `(?={j}\.\s+|$)` holds at a suffix:
the next ordinal marker starts there, or the text ends there (allowing the
single trailing newline that `$` skips). -/
def stopSpec (j : Nat) (t : List Char) : Prop :=
  markerSpec j t ∨ t = [] ∨ t = ['\n']

theorem numDotWs_iff (j : Nat) (t : List Char) :
    numDotWs (numeralC j) t = true ↔ markerSpec j t := by
  unfold numDotWs markerSpec
  cases hp : parseNumDot (numeralC j) t with
  | none =>
    constructor
    · intro h; exact absurd h (by simp)
    · rintro ⟨c, w, ht, hc⟩
      rw [(parseNumDot_iff (numeralC j) t (c :: w)).mpr ht] at hp
      simp at hp
  | some u =>
    rw [parseNumDot_iff] at hp
    subst hp
    cases u with
    | nil =>
      constructor
      · intro h; exact absurd h (by simp)
      · rintro ⟨c, w, ht, hc⟩
        simp at ht
    | cons c w =>
      constructor
      · intro h
        exact ⟨c, w, rfl, h⟩
      · rintro ⟨c', w', ht, hc⟩
        have h2 : ('.' :: c :: w : List Char) = '.' :: c' :: w' := List.append_cancel_left ht
        simp only [List.cons.injEq] at h2
        show isWs c = true
        rw [h2.2.1]
        exact hc

theorem dollarAt_iff (t : List Char) : dollarAt t = true ↔ t = [] ∨ t = ['\n'] := by
  match t with
  | [] => simp [dollarAt]
  | [c] => simp [dollarAt]
  | c :: d :: rest => simp [dollarAt]

theorem stopStrict_iff (i : Nat) (t : List Char) :
    stopStrict i t = true ↔ stopSpec (i + 1) t := by
  unfold stopStrict stopSpec
  rw [Bool.or_eq_true, numDotWs_iff, dollarAt_iff]

theorem captureSplit_append (stop : List Char → Bool) (s : List Char) :
    (captureSplit stop s).1 ++ (captureSplit stop s).2 = s := by
  induction s with
  | nil => simp [captureSplit]
  | cons c rest ih =>
    simp only [captureSplit]
    split
    · simp
    · simpa using ih

theorem captureSplit_stop (stop : List Char → Bool) (s : List Char) (h0 : stop [] = true) :
    stop (captureSplit stop s).2 = true := by
  induction s with
  | nil => simpa [captureSplit] using h0
  | cons c rest ih =>
    simp only [captureSplit]
    split
    · next h => exact h
    · simpa using ih

theorem captureSplit_min (stop : List Char → Bool) (s : List Char) :
    ∀ t', t' <:+ s → (captureSplit stop s).2.length < t'.length → stop t' = false := by
  induction s with
  | nil =>
    intro t' ht hlen
    rw [List.suffix_nil.mp ht] at hlen
    simp [captureSplit] at hlen
  | cons c rest ih =>
    intro t' ht hlen
    by_cases hstop : stop (c :: rest) = true
    · rw [show captureSplit stop (c :: rest) = ([], c :: rest) by simp [captureSplit, hstop]] at hlen
      have := ht.sublist.length_le
      simp at hlen this
      omega
    · rw [show captureSplit stop (c :: rest) =
          (c :: (captureSplit stop rest).1, (captureSplit stop rest).2) by
        simp [captureSplit, hstop]] at hlen
      rcases List.suffix_cons_iff.mp ht with h | h
      · subst h
        simpa using hstop
      · exact ih t' h hlen

theorem litP_suffix {n s r : List Char} (h : litP n s = some r) : r <:+ s := by
  rw [litP_iff] at h
  exact ⟨n, h.symm⟩

theorem wsStarB_result {k : List Char → Option (List Char)} :
    ∀ {s v : List Char}, wsStarB k s = some v → ∃ u, u <:+ s ∧ k u = some v := by
  intro s
  induction s with
  | nil => intro v h; exact ⟨[], List.suffix_refl _, h⟩
  | cons c rest ih =>
    intro v h
    unfold wsStarB at h
    by_cases hw : isWs c = true
    · rw [if_pos hw] at h
      cases hr : wsStarB k rest with
      | some v' =>
        rw [hr] at h
        simp only [Option.some.injEq] at h
        subst h
        obtain ⟨u, hu, hk⟩ := ih hr
        exact ⟨u, hu.trans (List.suffix_cons c rest), hk⟩
      | none =>
        rw [hr] at h
        exact ⟨c :: rest, List.suffix_refl _, h⟩
    · rw [if_neg hw] at h
      exact ⟨c :: rest, List.suffix_refl _, h⟩

theorem wsPlusB_result {k : List Char → Option (List Char)} {s v : List Char}
    (h : wsPlusB k s = some v) : ∃ u, u <:+ s ∧ k u = some v := by
  cases s with
  | nil => simp [wsPlusB] at h
  | cons c rest =>
    simp only [wsPlusB] at h
    by_cases hw : isWs c = true
    · rw [if_pos hw] at h
      obtain ⟨u, hu, hk⟩ := wsStarB_result h
      exact ⟨u, hu.trans (List.suffix_cons c rest), hk⟩
    · rw [if_neg hw] at h
      exact absurd h (by simp)

theorem parseStrict_rest {i : Nat} {s r : List Char}
    (h : parseStrict i s = some r) : r <:+ s := by
  unfold parseStrict at h
  cases hp : parseNumDot (numeralC i) s with
  | none => rw [hp] at h; exact absurd h (by simp)
  | some u =>
    rw [hp] at h
    obtain ⟨w, hw, hk⟩ := wsPlusB_result h
    have h1 : r <:+ w := litP_suffix hk
    have h2 : u <:+ s := by
      rw [parseNumDot_iff] at hp
      exact ⟨numeralC i ++ ['.'], by simpa using hp.symm⟩
    exact (h1.trans hw).trans h2

theorem searchStrict_some {i : Nat} :
    ∀ {s cap : List Char}, searchStrict i s = some cap →
      ∃ u r, u <:+ s ∧ parseStrict i u = some r ∧ cap = captureUpTo (stopStrict i) r := by
  intro s
  induction s with
  | nil => intro cap h; simp [searchStrict] at h
  | cons c rest ih =>
    intro cap h
    unfold searchStrict at h
    cases hp : parseStrict i (c :: rest) with
    | some r =>
      rw [hp] at h
      simp only [Option.some.injEq] at h
      exact ⟨c :: rest, r, List.suffix_refl _, hp, h.symm⟩
    | none =>
      rw [hp] at h
      obtain ⟨u, r, hu, hpr, hcap⟩ := ih h
      exact ⟨u, r, hu.trans (List.suffix_cons c rest), hpr, hcap⟩

/-- Claim-side (C6): the search the claim describes — identical to the
source's strict search except that the capture for section `i` extends to
the start of ordinal `i+1`'s full *strict* pattern (numeral, period,
whitespace, then the canonical title of `i+1`), or to the end of text. -/
def searchStrictClaim (i : Nat) : List Char → Option (List Char)
  | [] => none
  | s@(_ :: rest) =>
    match parseStrict i s with
    | some r =>
      some (captureUpTo (fun t => (parseStrict (i + 1) t).isSome || dollarAt t) r)
    | none => searchStrictClaim i rest

/-- Claim C6 counterexample: on
`"1. Introduction\nA\n2. Foo\n2. Goals and Objectives\nB"` the source's
strict capture for section 1 stops at the bare marker `"2. Foo"`, not at
the strict pattern `"2. Goals and Objectives"` the claim names, so the two
searches disagree. -/
theorem c6_counterexample :
    searchStrict 1 ("1. Introduction\nA\n2. Foo\n2. Goals and Objectives\nB").data =
      some ("\nA\n").data ∧
    searchStrictClaim 1 ("1. Introduction\nA\n2. Foo\n2. Goals and Objectives\nB").data =
      some ("\nA\n2. Foo\n").data ∧
    searchStrict 1 ("1. Introduction\nA\n2. Foo\n2. Goals and Objectives\nB").data ≠
      searchStrictClaim 1 ("1. Introduction\nA\n2. Foo\n2. Goals and Objectives\nB").data := by
  refine ⟨by decide, by decide, by decide⟩

/-- Claim C6 (amended): when the strict pattern for section `i`
(`1 ≤ i ≤ 15`) matches, the capture extends exactly up to the first
subsequent position where the bare marker `{i+1}\.\s` holds — with no
check of the following title — or, when no such marker follows, to the end
of the text (stopping just before a single trailing newline). -/
theorem c6_amended (i : Nat) (s cap : List Char) (h1 : 1 ≤ i) (h15 : i ≤ 15)
    (h : searchStrict i s = some cap) :
    ∃ r t, r <:+ s ∧ r = cap ++ t ∧ stopSpec (i + 1) t ∧
      (∀ t', t' <:+ r → t.length < t'.length → ¬ stopSpec (i + 1) t') := by
  obtain ⟨u, r, hu, hp, hcap⟩ := searchStrict_some h
  refine ⟨r, (captureSplit (stopStrict i) r).2, (parseStrict_rest hp).trans hu, ?_, ?_, ?_⟩
  · rw [hcap]
    exact (captureSplit_append (stopStrict i) r).symm
  · rw [← stopStrict_iff]
    exact captureSplit_stop (stopStrict i) r (by simp [stopStrict, dollarAt])
  · intro t' ht' hlen hspec
    have hfalse := captureSplit_min (stopStrict i) r t' ht' hlen
    rw [← stopStrict_iff] at hspec
    rw [hfalse] at hspec
    exact absurd hspec (by simp)

/-- Witness for the amended C6 at a concrete input: section 1 with no
following marker captures to the end of the text. -/
theorem c6_amended_witness :
    ∃ r t, r <:+ ("1. Introduction\nA").data ∧ r = ("\nA").data ++ t ∧ stopSpec 2 t ∧
      (∀ t', t' <:+ r → t.length < t'.length → ¬ stopSpec 2 t') :=
  c6_amended 1 ("1. Introduction\nA").data ("\nA").data (by decide) (by decide) (by decide)

/-- Claim C8 counterexample: on
`"16. Points Requiring Further Clarification\nA\n17. B"` the whole text
after the section-16 title is `"\nA\n17. B"`, but the source's capture for
section 16 stops at the `"17. "` marker and returns only `"\nA\n"` — the
capture does *not* run to the end of the input. -/
theorem c8_counterexample :
    searchStrict 16 ("16. Points Requiring Further Clarification\nA\n17. B").data =
      some ("\nA\n").data ∧
    parseStrict 16 ("16. Points Requiring Further Clarification\nA\n17. B").data =
      some ("\nA\n17. B").data ∧
    ("\nA\n").data ≠ ("\nA\n17. B").data := by
  refine ⟨by decide, by decide, by decide⟩

/-- Claim C8 (amended): section 16's capture is delimited like every other
section's — it extends exactly up to the first subsequent position where
the bare marker `17\.\s` holds, or, when no such marker follows, to the
end of the text (stopping just before a single trailing newline). -/
theorem c8_amended (s cap : List Char) (h : searchStrict 16 s = some cap) :
    ∃ r t, r <:+ s ∧ r = cap ++ t ∧ stopSpec 17 t ∧
      (∀ t', t' <:+ r → t.length < t'.length → ¬ stopSpec 17 t') := by
  obtain ⟨u, r, hu, hp, hcap⟩ := searchStrict_some h
  refine ⟨r, (captureSplit (stopStrict 16) r).2, (parseStrict_rest hp).trans hu, ?_, ?_, ?_⟩
  · rw [hcap]
    exact (captureSplit_append (stopStrict 16) r).symm
  · rw [← stopStrict_iff]
    exact captureSplit_stop (stopStrict 16) r (by simp [stopStrict, dollarAt])
  · intro t' ht' hlen hspec
    have hfalse := captureSplit_min (stopStrict 16) r t' ht' hlen
    rw [← stopStrict_iff] at hspec
    rw [hfalse] at hspec
    exact absurd hspec (by simp)

/-- Witness for the amended C8 at a concrete input with a `17. ` marker. -/
theorem c8_amended_witness :
    ∃ r t, r <:+ ("16. Points Requiring Further Clarification\nA\n17. B").data ∧
      r = ("\nA\n").data ++ t ∧ stopSpec 17 t ∧
      (∀ t', t' <:+ r → t.length < t'.length → ¬ stopSpec 17 t') :=
  c8_amended ("16. Points Requiring Further Clarification\nA\n17. B").data
    ("\nA\n").data (by decide)

/-! ### Claim C4: the orchestrator and Table blocks -/

theorem mixedGo_no_table :
    ∀ (ls items paras : List (List Char)) (b : Block),
      b ∈ mixedGo ls items paras → b.isTable = false := by
  intro ls
  induction ls with
  | nil =>
    intro items paras b hb
    simp only [mixedGo] at hb
    rcases List.mem_append.mp hb with h | h
    · split at h
      · simp at h
      · simp only [List.mem_singleton] at h
        subst h
        rfl
    · obtain ⟨p, _, hp⟩ := List.mem_map.mp h
      subst hp
      rfl
  | cons l rest ih =>
    intro items paras b hb
    simp only [mixedGo] at hb
    split at hb
    · exact ih items paras b hb
    · split at hb
      · rcases List.mem_append.mp hb with h | h
        · obtain ⟨p, _, hp⟩ := List.mem_map.mp h
          subst hp
          rfl
        · exact ih _ _ b h
      · rcases List.mem_append.mp hb with h | h
        · split at h
          · simp at h
          · simp only [List.mem_singleton] at h
            subst h
            rfl
        · exact ih _ _ b h

theorem addContentC_no_table (s : List Char) (b : Block) (hb : b ∈ addContentC s) :
    b.isTable = false := by
  unfold addContentC at hb
  split at hb
  · exact mixedGo_no_table _ _ _ b hb
  · generalize splitNN [] s = chunks at hb
    revert hb
    induction chunks with
    | nil => intro hb; simp at hb
    | cons p rest ih =>
      intro hb
      simp only [List.foldr_cons] at hb
      split at hb
      · exact ih hb
      · rcases List.mem_cons.mp hb with h | h
        · subst h
          rfl
        · exact ih h

theorem sectionStory_no_table (p : List Char × List Char) (b : Block)
    (hb : b ∈ sectionStory p) : b.isTable = false := by
  unfold sectionStory at hb
  rcases List.mem_cons.mp hb with h | h
  · subst h
    rfl
  · rcases List.mem_append.mp h with h2 | h2
    · split at h2
      · simp at h2
      · exact addContentC_no_table _ b h2
    · simp only [List.mem_singleton] at h2
      subst h2
      rfl

/-- Claim C4 counterexample: a build whose input has a section 4 full of
`FR...|...` rows produces *no* Table block anywhere in the story — the
orchestrator never invokes the table-extraction routine, and section 4's
content is emitted through the ordinary formatter. -/
theorem c4_counterexample :
    ((generate "May 5, 2025" "4. Functional Requirements\nFR01|Login|High|None\n").all
      (fun b => !b.isTable)) = true ∧
    (Block.paragraph "FR01|Login|High|None" ∈
      generate "May 5, 2025" "4. Functional Requirements\nFR01|Login|High|None\n") := by
  refine ⟨by decide, by decide⟩

/-- Claim C4 (amended): `generate` never invokes
`add_functional_requirements_table` — the routine is defined but has no
caller — so no build contains a Table block for any section; section 4 is
formatted with paragraph/bullet blocks by the ordinary content formatter
like every other section. -/
theorem c4_amended (dateStr content : String) (b : Block)
    (hb : b ∈ generate dateStr content) : b.isTable = false := by
  unfold generate at hb
  rcases List.mem_append.mp hb with h | h
  · rcases List.mem_append.mp h with h2 | h2
    · rcases List.mem_append.mp h2 with h3 | h3
      · unfold create_cover_page at h3
        rcases List.mem_cons.mp h3 with h4 | h4
        · subst h4; rfl
        · rcases List.mem_cons.mp h4 with h5 | h5
          · subst h5; rfl
          · rcases List.mem_cons.mp h5 with h6 | h6
            · subst h6; rfl
            · rcases List.mem_cons.mp h6 with h7 | h7
              · subst h7; rfl
              · simp only [List.mem_singleton] at h7
                subst h7; rfl
      · unfold create_table_of_contents at h3
        rcases List.mem_cons.mp h3 with h4 | h4
        · subst h4; rfl
        · rcases List.mem_cons.mp h4 with h5 | h5
          · subst h5; rfl
          · obtain ⟨q, _, hq⟩ := List.mem_map.mp h5
            subst hq; rfl
    · simp only [List.mem_singleton] at h2
      subst h2; rfl
  · unfold parse_and_add_content at h
    generalize sectionsDictC content.data = entries at h
    revert h
    induction entries with
    | nil => intro h; simp at h
    | cons p rest ih =>
      intro h
      simp only [List.foldr_cons] at h
      rcases List.mem_append.mp h with h2 | h2
      · exact sectionStory_no_table p b h2
      · exact ih h2

/-- Witness for the amended C4 at a concrete build and block. -/
theorem c4_amended_witness :
    Block.isTable (Block.paragraph "Table of Contents") = false :=
  c4_amended "May 5, 2025" "some input" (Block.paragraph "Table of Contents") (by decide)

/-! ### Claim C1: sixteen sections and placeholders -/

theorem dictInsert_append {κ α : Type} [DecidableEq κ] (d : List (κ × α)) (k : κ) (v : α)
    (h : k ∉ d.map Prod.fst) : dictInsert d k v = d ++ [(k, v)] := by
  induction d with
  | nil => rfl
  | cons p t ih =>
    simp only [List.map_cons, List.mem_cons] at h
    push_neg at h
    have hne : ¬p.1 = k := fun hh => h.1 hh.symm
    simp only [dictInsert, if_neg hne, List.cons_append, List.cons.injEq, true_and]
    exact ih h.2

theorem dict_foldl_distinct {α : Type} (f : Nat → α) :
    ∀ (l : List Nat) (d : List (List Char × α)),
      (∀ i ∈ l, numeralC i ∉ d.map Prod.fst) →
      l.Pairwise (fun a b => numeralC a ≠ numeralC b) →
      l.foldl (fun d i => dictInsert d (numeralC i) (f i)) d =
        d ++ l.map (fun i => (numeralC i, f i)) := by
  intro l
  induction l with
  | nil => intro d _ _; simp
  | cons i rest ih =>
    intro d hmem hpair
    simp only [List.foldl_cons]
    rw [dictInsert_append d (numeralC i) (f i) (hmem i (by simp))]
    rw [ih (d ++ [(numeralC i, f i)]) ?_ (List.Pairwise.of_cons hpair)]
    · simp
    · intro j hj
      simp only [List.map_append, List.mem_append]
      push_neg
      refine ⟨hmem j (by simp [hj]), ?_⟩
      have hne := (List.pairwise_cons.mp hpair).1 j hj
      simpa using fun hh => hne hh.symm

theorem sectionsDict_eq (content : List Char) :
    sectionsDictC content =
      (List.range' 1 16).map (fun i => (numeralC i, sectionRawC i content)) := by
  unfold sectionsDictC
  rw [dict_foldl_distinct (fun i => sectionRawC i content) (List.range' 1 16) []
    (by simp) (by decide)]
  simp

theorem sectionsData_eq (content : List Char) :
    sectionsDataC content =
      (List.range' 1 16).map
        (fun i => (numeralC i, titleOfK (numeralC i) (sectionRawC i content),
          bodyOfRaw (sectionRawC i content))) := by
  unfold sectionsDataC
  rw [sectionsDict_eq]
  rw [List.map_map]
  rfl

theorem sectionRaw_placeholder {i : Nat} {content : List Char}
    (hs : searchStrict i content = none) (hl : searchLoose i content = none) :
    sectionRawC i content = placeholderC i := by
  unfold sectionRawC
  rw [hs, hl]

theorem placeholder_data : ∀ i, i ≤ 16 →
    titleOfK (numeralC i) (placeholderC i) = titleC i ∧
    bodyOfRaw (placeholderC i) = ("No content provided for this section.").data := by
  decide

/-- Claim C1: for every input, the extraction step produces entries for
exactly the sixteen ordinals `1..16`, in order, never fewer and never
more; and whenever ordinal `i` has neither a strict-pattern match nor a
loose `"i. "`-marker match, entry `i` carries the canonical default title
for `i` and the body is exactly the literal
`"No content provided for this section."`. -/
theorem c1_sixteen_sections_and_placeholders (content : String) :
    ((sectionsDataC content.data).map (fun p => p.1) = (List.range' 1 16).map numeralC) ∧
    (sectionsDataC content.data).length = 16 ∧
    (∀ i, 1 ≤ i → i ≤ 16 → searchStrict i content.data = none →
      searchLoose i content.data = none →
      (sectionsDataC content.data).get? (i - 1) =
        some (numeralC i, titleC i, ("No content provided for this section.").data)) := by
  refine ⟨?_, ?_, ?_⟩
  · rw [sectionsData_eq, List.map_map]
    rfl
  · rw [sectionsData_eq]
    simp
  · intro i h1 h16 hs hl
    rw [sectionsData_eq]
    have hrange : (List.range' 1 16).get? (i - 1) = some i := by
      interval_cases i <;> rfl
    rw [List.get?_map, hrange]
    simp only [Option.map_some']
    rw [sectionRaw_placeholder hs hl]
    have hp := placeholder_data i h16
    rw [hp.1, hp.2]

/-- Witness for C1: on the input `"hello"`, which matches no section
pattern at all, entry 3 is the placeholder section. -/
theorem c1_witness :
    (sectionsDataC ("hello").data).get? 2 =
      some (("3").data, ("User Personas and Roles").data,
        ("No content provided for this section.").data) :=
  ((c1_sixteen_sections_and_placeholders "hello").2.2 3 (by decide) (by decide)
    (by decide) (by decide)).trans (by decide)

/-! ### Claims C3 and C9: the content formatter -/

/-- Claim-side (C3): the line, after trimming, begins with `-` or `*`
followed by a whitespace character. -/
def lineBulletWs (l : List Char) : Bool :=
  match pyStrip l with
  | m :: c :: _ => (m = '-' || m = '*') && isWs c
  | _ => false

/-- Claim-side (C3): group already-stripped, non-blank lines into blocks —
`acc` is the current run of bullet lines; a maximal run becomes exactly
one `bulletList` block with the item texts (marker stripped, trimmed) in
input order, and each non-bullet line becomes one `paragraph` block of its
own. -/
def runBlocksAux : List (List Char) → List (List Char) → List Block
  | acc, [] => if acc = [] then [] else [Block.bulletList (acc.map String.mk)]
  | acc, l :: rest =>
    if isBulletLine l then runBlocksAux (acc ++ [itemOf l]) rest
    else
      (if acc = [] then [] else [Block.bulletList (acc.map String.mk)]) ++
        Block.paragraph (String.mk l) :: runBlocksAux [] rest

/-- Claim-side (C3): blocks of a body, from its stripped non-blank lines. -/
def runBlocks (ls : List (List Char)) : List Block :=
  runBlocksAux [] ls

/-- Claim-side (C3): the stripped lines of the body with blank lines
skipped. -/
def cleanLines (ls : List (List Char)) : List (List Char) :=
  (ls.map pyStrip).filter (fun t => !t.isEmpty)

theorem cleanLines_nil : cleanLines [] = [] := rfl

theorem cleanLines_cons (l : List Char) (rest : List (List Char)) :
    cleanLines (l :: rest) =
      if pyStrip l = [] then cleanLines rest else pyStrip l :: cleanLines rest := by
  by_cases h : pyStrip l = []
  · simp [cleanLines, List.filter, h]
  · simp only [cleanLines, List.map_cons, List.filter]
    rw [if_neg h]
    have : (!(pyStrip l).isEmpty) = true := by
      cases hp : pyStrip l
      · exact absurd hp h
      · simp
    rw [this]

theorem mixedGo_runAux : ∀ ls : List (List Char),
    (∀ items, mixedGo ls items [] = runBlocksAux items (cleanLines ls)) ∧
    (∀ paras, mixedGo ls [] paras =
      paras.map (fun p => Block.paragraph (String.mk p)) ++ runBlocksAux [] (cleanLines ls)) := by
  intro ls
  induction ls with
  | nil =>
    constructor
    · intro items
      simp [mixedGo, cleanLines, runBlocksAux]
    · intro paras
      simp [mixedGo, cleanLines, runBlocksAux]
  | cons l rest ih =>
    constructor
    · intro items
      rw [cleanLines_cons]
      by_cases ht : pyStrip l = []
      · rw [if_pos ht]
        simp only [mixedGo, ht, if_pos rfl]
        exact ih.1 items
      · rw [if_neg ht]
        by_cases hb : isBulletLine (pyStrip l) = true
        · simp only [mixedGo, if_neg ht, hb, if_true, List.map_nil, List.nil_append]
          rw [ih.1 (items ++ [itemOf (pyStrip l)])]
          simp [runBlocksAux, hb]
        · simp only [mixedGo, if_neg ht, hb, Bool.false_eq_true, if_false, List.nil_append]
          rw [ih.2 [pyStrip l]]
          simp [runBlocksAux, hb]
    · intro paras
      rw [cleanLines_cons]
      by_cases ht : pyStrip l = []
      · rw [if_pos ht]
        simp only [mixedGo, ht, if_pos rfl]
        exact ih.2 paras
      · rw [if_neg ht]
        by_cases hb : isBulletLine (pyStrip l) = true
        · simp only [mixedGo, if_neg ht, hb, if_true, List.nil_append]
          rw [ih.1 [itemOf (pyStrip l)]]
          simp [runBlocksAux, hb]
        · simp only [mixedGo, if_neg ht, hb, Bool.false_eq_true, if_false, List.nil_append]
          rw [ih.2 (paras ++ [pyStrip l])]
          simp [runBlocksAux, hb]

theorem bulletAt_iff (y : List Char) :
    bulletAt y = true ↔
      ∃ w m c d, y = w ++ m :: c :: d ∧ (∀ x ∈ w, isWs x = true) ∧
        (m = '-' ∨ m = '*') ∧ isWs c = true := by
  induction y with
  | nil =>
    simp only [bulletAt]
    constructor
    · intro h; exact absurd h (by simp)
    · rintro ⟨w, m, c, d, hy, _, _, _⟩
      exact absurd hy (by simp)
  | cons c0 rest ih =>
    by_cases hw : isWs c0 = true
    · rw [show bulletAt (c0 :: rest) = bulletAt rest by simp [bulletAt, hw]]
      rw [ih]
      constructor
      · rintro ⟨w, m, c, d, hy, hws, hm, hc⟩
        refine ⟨c0 :: w, m, c, d, by simp [hy], ?_, hm, hc⟩
        intro x hx
        rcases List.mem_cons.mp hx with h | h
        · subst h; exact hw
        · exact hws x h
      · rintro ⟨w, m, c, d, hy, hws, hm, hc⟩
        cases w with
        | nil =>
          simp only [List.nil_append, List.cons.injEq] at hy
          exfalso
          rcases hm with h | h <;> rw [hy.1, h] at hw <;> simp [isWs] at hw
        | cons w0 w' =>
          simp only [List.cons_append, List.cons.injEq] at hy
          exact ⟨w', m, c, d, hy.2, fun x hx => hws x (by simp [hx]), hm, hc⟩
    · cases rest with
      | nil =>
        constructor
        · intro h
          exfalso
          simp [bulletAt, hw] at h
        · rintro ⟨w, m, c, d, hy, hws, hm, hc⟩
          exfalso
          have := congrArg List.length hy
          simp at this
          omega
      | cons c1 d0 =>
        constructor
        · intro h
          have h' : (c0 = '-' ∨ c0 = '*') ∧ isWs c1 = true := by
            simpa [bulletAt, hw] using h
          exact ⟨[], c0, c1, d0, by simp, by simp, h'.1, h'.2⟩
        · rintro ⟨w, m, c, d, hy, hws, hm, hc⟩
          cases w with
          | nil =>
            simp only [List.nil_append, List.cons.injEq] at hy
            obtain ⟨h1, h2, h3⟩ := hy
            have hb1 : bulletAt (c0 :: c1 :: d0) = ((c0 = '-' || c0 = '*') && isWs c1) := by
              simp [bulletAt, hw]
            rw [hb1, h2, Bool.and_eq_true_iff]
            refine ⟨?_, hc⟩
            rcases hm with h | h <;> simp [h1, h]
          | cons w0 w' =>
            exfalso
            simp only [List.cons_append, List.cons.injEq] at hy
            rw [hy.1] at hw
            exact hw (hws w0 (by simp))

theorem mixedFlagAux_iff : ∀ (s : List Char) (ls : Bool),
    mixedFlagAux ls s = true ↔
      ∃ a y, s = a ++ y ∧ ((a = [] ∧ ls = true) ∨ a.getLast? = some '\n') ∧
        bulletAt y = true := by
  intro s
  induction s with
  | nil =>
    intro ls
    simp only [mixedFlagAux]
    constructor
    · intro h; exact absurd h (by simp)
    · rintro ⟨a, y, hs, _, hb⟩
      have hy : y = [] := by
        have := congrArg List.length hs
        simp at this
        exact List.length_eq_zero.mp (by omega)
      rw [hy] at hb
      simp [bulletAt] at hb
  | cons c rest ih =>
    intro ls
    rw [show mixedFlagAux ls (c :: rest) =
        ((ls && bulletAt (c :: rest)) || mixedFlagAux (c = '\n') rest) from rfl]
    constructor
    · intro h
      rcases Bool.or_eq_true_iff.mp h with h | h
      · rcases Bool.and_eq_true_iff.mp h with ⟨hls, hb⟩
        exact ⟨[], c :: rest, by simp, Or.inl ⟨rfl, hls⟩, hb⟩
      · obtain ⟨a', y', hs', hcond', hb'⟩ := (ih (c = '\n')).mp h
        refine ⟨c :: a', y', by simp [hs'], ?_, hb'⟩
        right
        rcases hcond' with ⟨ha', hdec⟩ | hlast
        · subst ha'
          simp only [decide_eq_true_eq] at hdec
          simp [hdec]
        · cases a' with
          | nil => simp at hlast
          | cons a0 a'' => rw [List.getLast?_cons_cons]; exact hlast
    · rintro ⟨a, y, hs, hcond, hb⟩
      cases a with
      | nil =>
        simp only [List.nil_append] at hs
        subst hs
        rcases hcond with ⟨_, hls⟩ | hlast
        · exact Bool.or_eq_true_iff.mpr (Or.inl (Bool.and_eq_true_iff.mpr ⟨hls, hb⟩))
        · simp at hlast
      | cons a0 a' =>
        simp only [List.cons_append, List.cons.injEq] at hs
        obtain ⟨hc0, hrest⟩ := hs
        subst hc0
        refine Bool.or_eq_true_iff.mpr (Or.inr ((ih (c = '\n')).mpr ⟨a', y, hrest, ?_, hb⟩))
        rcases hcond with ⟨ha, _⟩ | hlast
        · exact absurd ha (by simp)
        · cases a' with
          | nil =>
            simp only [List.getLast?_singleton, Option.some.injEq] at hlast
            exact Or.inl ⟨rfl, by simp [hlast]⟩
          | cons a1 a'' =>
            rw [List.getLast?_cons_cons] at hlast
            exact Or.inr hlast

theorem splitNL_ne_nil (s : List Char) : splitNL s ≠ [] := by
  cases s with
  | nil => simp [splitNL]
  | cons c rest =>
    by_cases h : c = '\n'
    · simp [splitNL, h]
    · simp only [splitNL, if_neg h]
      cases splitNL rest <;> simp

theorem splitNL_head : ∀ (s : List Char) (h : List Char) (tl : List (List Char)),
    splitNL s = h :: tl → ∃ r, s = h ++ r := by
  intro s
  induction s with
  | nil =>
    intro h tl hs
    simp only [splitNL, List.cons.injEq] at hs
    exact ⟨[], by simp [← hs.1]⟩
  | cons c rest ih =>
    intro h tl hs
    by_cases hc : c = '\n'
    · rw [splitNL, if_pos hc] at hs
      simp only [List.cons.injEq] at hs
      exact ⟨c :: rest, by simp [← hs.1]⟩
    · rw [splitNL, if_neg hc] at hs
      cases hr : splitNL rest with
      | nil => exact absurd hr (splitNL_ne_nil rest)
      | cons l' ls' =>
        rw [hr] at hs
        simp only [List.cons.injEq] at hs
        obtain ⟨r, hrest⟩ := ih l' ls' hr
        exact ⟨r, by rw [← hs.1]; simp [hrest]⟩

theorem splitNL_tail_mem : ∀ (s : List Char) (l : List Char),
    l ∈ (splitNL s).tail → ∃ a r, s = a ++ '\n' :: (l ++ r) := by
  intro s
  induction s with
  | nil =>
    intro l hl
    simp [splitNL] at hl
  | cons c rest ih =>
    intro l hl
    by_cases hc : c = '\n'
    · rw [splitNL, if_pos hc] at hl
      simp only [List.tail_cons] at hl
      cases hr : splitNL rest with
      | nil => exact absurd hr (splitNL_ne_nil rest)
      | cons h0 tl =>
        rw [hr] at hl
        rcases List.mem_cons.mp hl with heq | htl
        · obtain ⟨r, hrest⟩ := splitNL_head rest h0 tl hr
          subst heq
          exact ⟨[], r, by simp [hc, hrest]⟩
        · obtain ⟨a, r, hrest⟩ := ih l (by rw [hr]; exact htl)
          exact ⟨c :: a, r, by simp [hrest]⟩
    · rw [splitNL, if_neg hc] at hl
      cases hr : splitNL rest with
      | nil => exact absurd hr (splitNL_ne_nil rest)
      | cons l' ls' =>
        rw [hr] at hl
        simp only [List.tail_cons] at hl
        obtain ⟨a, r, hrest⟩ := ih l (by rw [hr]; exact hl)
        exact ⟨c :: a, r, by simp [hrest]⟩

theorem pyStrip_prefix_drop (l : List Char) : pyStrip l <+: l.dropWhile isWs := by
  unfold pyStrip
  have h1 : (l.dropWhile isWs).reverse.dropWhile isWs <:+ (l.dropWhile isWs).reverse :=
    List.dropWhile_suffix isWs
  have h2 := List.reverse_prefix.mpr h1
  simpa using h2

theorem bulletAt_skip : ∀ (w x : List Char), (∀ c ∈ w, isWs c = true) →
    bulletAt (w ++ x) = bulletAt x := by
  intro w
  induction w with
  | nil => intro x _; rfl
  | cons c w' ih =>
    intro x hw
    have hc : isWs c = true := hw c (by simp)
    simp only [List.cons_append, bulletAt, hc, if_pos]
    exact ih x (fun d hd => hw d (by simp [hd]))

theorem bulletAt_of_lineBulletWs (l r : List Char) (h : lineBulletWs l = true) :
    bulletAt (l ++ r) = true := by
  unfold lineBulletWs at h
  cases hp : pyStrip l with
  | nil => rw [hp] at h; simp at h
  | cons m rest0 =>
    cases rest0 with
    | nil => rw [hp] at h; simp at h
    | cons c rest =>
      rw [hp] at h
      simp only [Bool.and_eq_true_iff, Bool.or_eq_true_iff] at h
      obtain ⟨hm, hc⟩ := h
      obtain ⟨t, hd⟩ : pyStrip l <+: l.dropWhile isWs := pyStrip_prefix_drop l
      rw [hp] at hd
      have hl : l = l.takeWhile isWs ++ (m :: c :: (rest ++ t)) := by
        conv_lhs => rw [← List.takeWhile_append_dropWhile (p := isWs) (l := l)]
        rw [← hd]
        simp
      rw [hl]
      rw [List.append_assoc]
      rw [bulletAt_skip _ _ (fun d hd => List.mem_takeWhile_imp hd)]
      have hmw : isWs m = false := by
        rcases hm with h | h <;> rw [decide_eq_true_eq] at h <;> subst h <;> rfl
      simp only [List.cons_append, bulletAt, hmw, Bool.false_eq_true, if_false]
      simp only [Bool.and_eq_true_iff]
      exact ⟨by rcases hm with h | h <;> simp [decide_eq_true_eq.mp h], hc⟩

/-- Claim C3: whenever some line of the body, after trimming, begins with
`-` or `*` followed by whitespace, the formatter output is exactly the
run-grouping of the stripped non-blank lines: maximal runs of
bullet-marker lines become one `bulletList` block each (items in input
order, marker stripped and trimmed), every other line becomes its own
`paragraph` block, and blank lines are skipped — input order preserved. -/
theorem c3_mixed_mode_runs (content : String)
    (h : ∃ l ∈ splitNL content.data, lineBulletWs l = true) :
    add_content_with_formatting content = runBlocks (cleanLines (splitNL content.data)) := by
  have hflag : mixedFlag content.data = true := by
    obtain ⟨l, hl, hlb⟩ := h
    cases hsp : splitNL content.data with
    | nil => exact absurd hsp (splitNL_ne_nil _)
    | cons h0 tl =>
      rw [hsp] at hl
      rcases List.mem_cons.mp hl with heq | htl
      · obtain ⟨r, hr⟩ := splitNL_head content.data h0 tl hsp
        subst heq
        exact (mixedFlagAux_iff content.data true).mpr
          ⟨[], l ++ r, by simp [hr], Or.inl ⟨rfl, rfl⟩, bulletAt_of_lineBulletWs l r hlb⟩
      · obtain ⟨a, r, hr⟩ := splitNL_tail_mem content.data l (by rw [hsp]; exact htl)
        exact (mixedFlagAux_iff content.data true).mpr
          ⟨a ++ ['\n'], l ++ r, by simp [hr],
            Or.inr (by rw [List.getLast?_concat]),
            bulletAt_of_lineBulletWs l r hlb⟩
  unfold add_content_with_formatting addContentC
  rw [if_pos hflag]
  exact (mixedGo_runAux (splitNL content.data)).1 []

/-- Witness for C3 at the body named in the claim. -/
theorem c3_witness :
    add_content_with_formatting "Intro line\n- item one\n- item two\nMore text" =
      [Block.paragraph "Intro line", Block.bulletList ["item one", "item two"],
        Block.paragraph "More text"] :=
  (c3_mixed_mode_runs "Intro line\n- item one\n- item two\nMore text"
    (by decide)).trans (by decide)

/-- Claim-side (C9): some line start is followed (possibly across further
whitespace, newlines included) by a `-` or `*` marker with a whitespace
character right after it. -/
def claimChara (s : List Char) : Prop :=
  ∃ a w m c d, s = a ++ (w ++ m :: c :: d) ∧ (a = [] ∨ a.getLast? = some '\n') ∧
    (∀ x ∈ w, isWs x = true) ∧ (m = '-' ∨ m = '*') ∧ isWs c = true

/-- Claim C9: the mode classifier and the per-line bullet test differ —
the formatter enters mixed mode exactly when a `-` or `*` marker in
line-leading position is followed by a whitespace character; once in that
mode a line like `-5` or `*emphasis*` (marker not followed by whitespace)
is still consumed as a bullet item with its first character stripped,
while a body whose marker lines all lack the following whitespace stays in
pure paragraph mode with the markers left in the text. -/
theorem c9_classifier_vs_line_test :
    (∀ content : String, mixedFlag content.data = true ↔ claimChara content.data) ∧
    add_content_with_formatting "-5\n*emphasis*" = [Block.paragraph "-5\n*emphasis*"] ∧
    add_content_with_formatting "- x\n-5\n*emphasis*" =
      [Block.bulletList ["x", "5", "emphasis*"]] := by
  refine ⟨?_, by decide, by decide⟩
  intro content
  constructor
  · intro h
    obtain ⟨a, y, hs, hcond, hb⟩ := (mixedFlagAux_iff content.data true).mp h
    obtain ⟨w, m, c, d, hy, hws, hm, hc⟩ := (bulletAt_iff y).mp hb
    refine ⟨a, w, m, c, d, by rw [hs, hy], ?_, hws, hm, hc⟩
    rcases hcond with ⟨h1, _⟩ | h2
    · exact Or.inl h1
    · exact Or.inr h2
  · rintro ⟨a, w, m, c, d, hs, hcond, hws, hm, hc⟩
    apply (mixedFlagAux_iff content.data true).mpr
    refine ⟨a, w ++ m :: c :: d, hs, ?_,
      (bulletAt_iff _).mpr ⟨w, m, c, d, rfl, hws, hm, hc⟩⟩
    rcases hcond with h | h
    · exact Or.inl ⟨h, rfl⟩
    · exact Or.inr h

/-! ### Claim C2: well-formed inputs with all sixteen canonical headers -/

/-- The canonical header line of ordinal `i`, as it appears in a
well-formed input: numeral, period, single space, canonical title. -/
def headerC (i : Nat) : List Char :=
  numeralC i ++ '.' :: ' ' :: titleC i

/-- A well-formed input: header 1, body 1, header 2, body 2, … -/
def joinFrom : Nat → List (List Char) → List Char
  | _, [] => []
  | k, b :: bs => headerC k ++ b ++ joinFrom (k + 1) bs

/-- The text begins (after any leading digits) with a period followed by a
whitespace character — the core of an ordinal marker. -/
def markerCore (u : List Char) : Bool :=
  match u.dropWhile isDigit with
  | p :: c :: _ => p = '.' && isWs c
  | _ => false

/-- The text begins with a full ordinal-like marker: at least one digit,
a period, then a whitespace character (the shape `\d+\.\s`). -/
def markerPrefix (u : List Char) : Bool :=
  !(u.takeWhile isDigit).isEmpty && markerCore u

/-- Claim-side (C2): a body is the newline-delimited text between two
headers and contains no stray ordinal-like marker at any position. -/
def bodyGoodB (b : List Char) : Bool :=
  decide (b.head? = some '\n') && decide (b.getLast? = some '\n') &&
    b.tails.all (fun u => !(markerPrefix u))

/-- Offset-wise safety of a header against the strict prefix of section
`i`: at every suffix of the header, either the first character is not a
digit, or the marker test for `i`'s numeral already fails inside the
header with room to spare. -/
def headerSafeB (i j : Nat) : Bool :=
  (List.range (headerC j).length).all (fun o =>
    match (headerC j).drop o with
    | [] => true
    | c :: _ =>
      !(isDigit c) ||
        (!(numDotWs (numeralC i) ((headerC j).drop o)) &&
          decide ((numeralC i).length + 2 ≤ ((headerC j).drop o).length)))

/-- The first character of a title, when present, is not whitespace. -/
def titleOkB (i : Nat) : Bool :=
  match titleC i with
  | c :: _ => !(isWs c)
  | [] => false

theorem numerals_digits : ∀ j, j < 18 →
    numeralC j ≠ [] ∧ ∀ c ∈ numeralC j, isDigit c = true := by decide

theorem headers_safe : ∀ i, i < 17 → ∀ j, j < 17 → 1 ≤ i → 1 ≤ j → j < i →
    headerSafeB i j = true := by decide

theorem titles_ok : ∀ i, i < 17 → 1 ≤ i → titleOkB i = true := by decide

theorem headers_no_nl : ∀ i, i < 17 → 1 ≤ i →
    ('\n' ∉ headerC i ∧ '\n' ∉ titleC i) := by decide

theorem parseNumDot_cons {n : Char} {N s : List Char} :
    parseNumDot (n :: N) (n :: s) = parseNumDot N s := by
  unfold parseNumDot
  simp [litP]

theorem numDotWs_cons {n : Char} {N s : List Char} :
    numDotWs (n :: N) (n :: s) = numDotWs N s := by
  unfold numDotWs
  rw [parseNumDot_cons]

theorem numDotWs_head_ne {n : Char} {N : List Char} {c : Char} {s : List Char}
    (h : c ≠ n) : numDotWs (n :: N) (c :: s) = false := by
  unfold numDotWs parseNumDot
  simp [litP, h]

theorem numDotWs_go : ∀ (N u r : List Char),
    (∀ c ∈ N, isDigit c = true) → u ≠ [] → u.getLast? = some '\n' →
    (r = [] ∨ ∃ d rs, r = d :: rs ∧ isDigit d = true) →
    markerCore u = false →
    numDotWs N (u ++ r) = false := by
  intro N
  induction N with
  | nil =>
    intro u r _ hu hlast _ hcore
    cases u with
    | nil => exact absurd rfl hu
    | cons u0 u' =>
      by_cases h0 : u0 = '.'
      · subst h0
        cases u' with
        | nil => simp at hlast
        | cons c1 u'' =>
          have hc1 : isWs c1 = false := by
            unfold markerCore at hcore
            rw [List.dropWhile_cons_of_neg (by decide)] at hcore
            simpa using hcore
          unfold numDotWs parseNumDot
          simp [litP, hc1]
      · unfold numDotWs parseNumDot
        simp [litP, h0]
  | cons n N'' ih =>
    intro u r hNd hu hlast hr hcore
    cases u with
    | nil => exact absurd rfl hu
    | cons u0 u' =>
      by_cases h0 : u0 = n
      · subst h0
        have hdu : isDigit u0 = true := hNd u0 (by simp)
        cases u' with
        | nil =>
          simp only [List.getLast?_singleton, Option.some.injEq] at hlast
          rw [hlast] at hdu
          simp [isDigit] at hdu
        | cons u1 u'' =>
          rw [List.cons_append, numDotWs_cons]
          apply ih (u1 :: u'') r (fun c hc => hNd c (by simp [hc])) (by simp)
          · rw [← hlast, List.getLast?_cons_cons]
          · exact hr
          · unfold markerCore at hcore ⊢
            rwa [List.dropWhile_cons_of_pos hdu] at hcore
      · rw [List.cons_append, numDotWs_head_ne h0]

theorem numDotWs_suffix_junction {N u r : List Char}
    (hN : N ≠ []) (hNd : ∀ c ∈ N, isDigit c = true)
    (hu : u ≠ []) (hlast : u.getLast? = some '\n')
    (hr : r = [] ∨ ∃ d rs, r = d :: rs ∧ isDigit d = true)
    (hm : markerPrefix u = false) :
    numDotWs N (u ++ r) = false := by
  cases u with
  | nil => exact absurd rfl hu
  | cons u0 u' =>
    by_cases hd : isDigit u0 = true
    · have hcore : markerCore (u0 :: u') = false := by
        unfold markerPrefix at hm
        rw [List.takeWhile_cons_of_pos hd] at hm
        simpa using hm
      exact numDotWs_go N (u0 :: u') r hNd (by simp) hlast hr hcore
    · cases N with
      | nil => exact absurd rfl hN
      | cons n0 N'' =>
        have : u0 ≠ n0 := by
          intro he
          rw [he] at hd
          exact hd (hNd n0 (by simp))
        rw [List.cons_append, numDotWs_head_ne this]

theorem numDotWs_det : ∀ (N u r : List Char), N.length + 2 ≤ u.length →
    numDotWs N (u ++ r) = numDotWs N u := by
  intro N
  induction N with
  | nil =>
    intro u r hlen
    match u with
    | a :: b :: u'' =>
      unfold numDotWs parseNumDot
      by_cases ha : a = '.'
      · simp [litP, ha]
      · simp [litP, ha]
  | cons n N'' ih =>
    intro u r hlen
    match u with
    | a :: u' =>
      by_cases ha : a = n
      · subst ha
        rw [List.cons_append, numDotWs_cons, numDotWs_cons]
        exact ih u' r (by simpa using hlen)
      · rw [List.cons_append, numDotWs_head_ne ha, numDotWs_head_ne ha]

theorem numDotWs_nondigit {N : List Char} {c : Char} {s : List Char}
    (hN : N ≠ []) (hNd : ∀ x ∈ N, isDigit x = true)
    (hc : isDigit c = false) : numDotWs N (c :: s) = false := by
  cases N with
  | nil => exact absurd rfl hN
  | cons n0 N'' =>
    have : c ≠ n0 := by
      intro he
      rw [he] at hc
      exact absurd (hNd n0 (by simp)) (by simp [hc])
    exact numDotWs_head_ne this

theorem parseStrict_none_of_numDotWs {i : Nat} {s : List Char}
    (h : numDotWs (numeralC i) s = false) : parseStrict i s = none := by
  unfold parseStrict
  cases hp : parseNumDot (numeralC i) s with
  | none => rfl
  | some u =>
    cases u with
    | nil => rfl
    | cons c u' =>
      have hc : isWs c = false := by
        unfold numDotWs at h
        rwa [hp] at h
      show (if isWs c = true then wsStarB (litP (titleC i)) u' else none) = none
      rw [if_neg (by simp [hc])]

theorem dollarAt_long {s : List Char} (h : 2 ≤ s.length) : dollarAt s = false := by
  match s with
  | a :: b :: t => rfl

theorem suffix_getLast? {u b : List Char} (h : u <:+ b) (hu : u ≠ []) :
    u.getLast? = b.getLast? := by
  obtain ⟨t, rfl⟩ := h
  rw [List.getLast?_append_of_ne_nil t hu]

theorem bodyGoodB_spec {b : List Char} (h : bodyGoodB b = true) :
    b.head? = some '\n' ∧ b.getLast? = some '\n' ∧
      ∀ u, u <:+ b → markerPrefix u = false := by
  unfold bodyGoodB at h
  simp only [Bool.and_eq_true_iff, decide_eq_true_eq, List.all_eq_true] at h
  refine ⟨h.1.1, h.1.2, fun u hu => ?_⟩
  have := h.2 u ((List.mem_tails u b).mpr hu)
  simpa using this

theorem searchStrict_cons_none {i : Nat} {c : Char} {t : List Char}
    (h : parseStrict i (c :: t) = none) : searchStrict i (c :: t) = searchStrict i t := by
  conv_lhs => rw [searchStrict]
  rw [h]

theorem searchStrict_append_none (i : Nat) : ∀ (A r : List Char),
    (∀ u, u <:+ A → u ≠ [] → parseStrict i (u ++ r) = none) →
    searchStrict i (A ++ r) = searchStrict i r := by
  intro A
  induction A with
  | nil => intro r _; rfl
  | cons a A' ih =>
    intro r h
    rw [List.cons_append]
    rw [searchStrict_cons_none (by simpa using h (a :: A') (List.suffix_refl _) (by simp))]
    exact ih r (fun u hu hne => h u (hu.trans (List.suffix_cons a A')) hne)

theorem headerSafe_skip {i j : Nat} (hsafe : headerSafeB i j = true)
    (hni : numeralC i ≠ []) (hnd : ∀ c ∈ numeralC i, isDigit c = true) :
    ∀ u, u <:+ headerC j → u ≠ [] → ∀ r, parseStrict i (u ++ r) = none := by
  intro u hu hne r
  obtain ⟨t, ht⟩ := hu
  have ho : (headerC j).drop t.length = u := by rw [← ht]; simp
  have hlt : t.length < (headerC j).length := by
    rw [← ht, List.length_append]
    cases u with
    | nil => exact absurd rfl hne
    | cons _ _ => simp
  have hcond := (List.all_eq_true.mp (by unfold headerSafeB at hsafe; exact hsafe))
    t.length (List.mem_range.mpr hlt)
  rw [ho] at hcond
  cases hu0 : u with
  | nil => exact absurd hu0 hne
  | cons c u' =>
    rw [hu0] at hcond
    simp only at hcond
    apply parseStrict_none_of_numDotWs
    rcases Bool.or_eq_true_iff.mp hcond with hnd0 | hboth
    · rw [List.cons_append]
      exact numDotWs_nondigit hni hnd (by simpa using hnd0)
    · rcases Bool.and_eq_true_iff.mp hboth with ⟨hnw, hlen⟩
      have hlen' : (numeralC i).length + 2 ≤ (c :: u').length := by
        simpa using hlen
      rw [numDotWs_det _ _ _ hlen']
      simpa using hnw

theorem parseStrict_at_header (i : Nat) (hti : titleOkB i = true) (X : List Char) :
    parseStrict i (headerC i ++ X) = some X := by
  unfold parseStrict
  have hp : parseNumDot (numeralC i) (headerC i ++ X) = some (' ' :: (titleC i ++ X)) :=
    (parseNumDot_iff _ _ _).mpr (by simp [headerC])
  rw [hp]
  show wsPlusB (litP (titleC i)) (' ' :: (titleC i ++ X)) = some X
  unfold titleOkB at hti
  cases hT : titleC i with
  | nil => rw [hT] at hti; simp at hti
  | cons t0 ttl =>
    have ht0 : isWs t0 = false := by
      rw [hT] at hti
      simpa using hti
    show wsStarB (litP (t0 :: ttl)) (t0 :: (ttl ++ X)) = some X
    unfold wsStarB
    rw [if_neg (by simp [ht0])]
    exact (litP_iff (t0 :: ttl) _ X).mpr (by simp)

theorem searchStrict_of_parse {i : Nat} {s r : List Char} (hs : s ≠ [])
    (hp : parseStrict i s = some r) :
    searchStrict i s = some (captureUpTo (stopStrict i) r) := by
  cases s with
  | nil => exact absurd rfl hs
  | cons c t =>
    unfold searchStrict
    rw [hp]

theorem captureSplit_of_stops (stop : List Char → Bool) : ∀ (B r : List Char),
    (∀ u, u <:+ B → u ≠ [] → stop (u ++ r) = false) → stop r = true →
    captureSplit stop (B ++ r) = (B, r) := by
  intro B
  induction B with
  | nil =>
    intro r _ hr
    cases r with
    | nil => rfl
    | cons c t =>
      rw [List.nil_append]
      unfold captureSplit
      rw [if_pos hr]
  | cons b B' ih =>
    intro r h hr
    have h0 : stop (b :: (B' ++ r)) = false := by
      simpa using h (b :: B') (List.suffix_refl _) (by simp)
    rw [List.cons_append]
    unfold captureSplit
    rw [if_neg (by simp [h0])]
    rw [ih r (fun u hu hne => h u (hu.trans (List.suffix_cons b B')) hne) hr]

theorem captureSplit_end (stop : List Char → Bool) : ∀ (B : List Char),
    B.getLast? = some '\n' → stop ['\n'] = true →
    (∀ u, u <:+ B → u ≠ [] → u ≠ ['\n'] → stop u = false) →
    captureSplit stop B = (B.dropLast, ['\n']) := by
  intro B
  induction B with
  | nil => intro h; simp at h
  | cons b B' ih =>
    intro hlast hstop h
    cases hB' : B' with
    | nil =>
      subst hB'
      simp only [List.getLast?_singleton, Option.some.injEq] at hlast
      subst hlast
      unfold captureSplit
      rw [if_pos hstop]
      rfl
    | cons b1 B'' =>
      subst hB'
      have h0 : stop (b :: b1 :: B'') = false :=
        h (b :: b1 :: B'') (List.suffix_refl _) (by simp) (by simp)
      unfold captureSplit
      rw [if_neg (by simp [h0])]
      have hlast' : (b1 :: B'').getLast? = some '\n' := by
        rwa [List.getLast?_cons_cons] at hlast
      rw [ih hlast' hstop (fun u hu hne hne1 =>
        h u (hu.trans (List.suffix_cons b (b1 :: B''))) hne hne1)]
      simp

theorem stopStrict_at_header (i : Nat) (X : List Char) :
    stopStrict i (headerC (i + 1) ++ X) = true := by
  unfold stopStrict
  apply Bool.or_eq_true_iff.mpr
  exact Or.inl ((numDotWs_iff (i + 1) _).mpr
    ⟨' ', titleC (i + 1) ++ X, by simp [headerC], by decide⟩)

theorem pyStrip_cons_ws {c : Char} {x : List Char} (h : isWs c = true) :
    pyStrip (c :: x) = pyStrip x := by
  unfold pyStrip
  rw [List.dropWhile_cons_of_pos h]

theorem pyStrip_append_nl : ∀ (Y : List Char), pyStrip (Y ++ ['\n']) = pyStrip Y := by
  intro Y
  induction Y with
  | nil => decide
  | cons c Y' ih =>
    by_cases h : isWs c = true
    · rw [List.cons_append, pyStrip_cons_ws h, pyStrip_cons_ws h]
      exact ih
    · unfold pyStrip
      rw [List.cons_append]
      rw [List.dropWhile_cons_of_neg (by simp [h]), List.dropWhile_cons_of_neg (by simp [h])]
      rw [List.reverse_cons, List.reverse_cons, List.reverse_append]
      have : ((Y' ++ ['\n']).reverse ++ [c]) = '\n' :: (Y'.reverse ++ [c]) := by simp
      rw [show (['\n'].reverse ++ Y'.reverse) ++ [c] = '\n' :: (Y'.reverse ++ [c]) by simp]
      rw [List.dropWhile_cons_of_pos (by decide)]

theorem getLast?_decomp {B : List Char} (h : B.getLast? = some '\n') :
    B = B.dropLast ++ ['\n'] := by
  have hne : B ≠ [] := by
    intro he
    rw [he] at h
    simp at h
  conv_lhs => rw [← List.dropLast_append_getLast hne]
  congr 1
  rw [List.getLast?_eq_getLast B hne] at h
  simp only [Option.some.injEq] at h
  rw [h]

theorem pyStrip_dropLast {B : List Char} (h : B.getLast? = some '\n') :
    pyStrip B.dropLast = pyStrip B := by
  conv_rhs => rw [getLast?_decomp h]
  rw [pyStrip_append_nl]

theorem splitFirstNL_no_nl : ∀ {A : List Char}, '\n' ∉ A → splitFirstNL A = none := by
  intro A
  induction A with
  | nil => intro _; rfl
  | cons c A' ih =>
    intro h
    unfold splitFirstNL
    rw [if_neg (fun he => h (by simp [he]))]
    rw [ih (fun hm => h (by simp [hm]))]

theorem splitFirstNL_append : ∀ {A : List Char} (rest : List Char), '\n' ∉ A →
    splitFirstNL (A ++ '\n' :: rest) = some (A, rest) := by
  intro A
  induction A with
  | nil =>
    intro rest _
    rw [List.nil_append]
    unfold splitFirstNL
    rw [if_pos rfl]
  | cons c A' ih =>
    intro rest h
    rw [List.cons_append]
    unfold splitFirstNL
    rw [if_neg (fun he => h (by simp [he]))]
    rw [ih rest (fun hm => h (by simp [hm]))]

theorem dollarAt_false_of_ne {u : List Char} (h1 : u ≠ []) (h2 : u ≠ ['\n']) :
    dollarAt u = false := by
  match u with
  | [] => exact absurd rfl h1
  | [c] =>
    have : c ≠ '\n' := by
      intro he
      rw [he] at h2
      exact h2 rfl
    simp [dollarAt, this]
  | a :: b :: t => rfl

theorem searchStrict_skip (i : Nat)
    (hni : numeralC i ≠ []) (hnd : ∀ c ∈ numeralC i, isDigit c = true) :
    ∀ (bs : List (List Char)) (k : Nat) (r : List Char),
      (∀ m, m < bs.length → headerSafeB i (k + m) = true) →
      (∀ b ∈ bs, bodyGoodB b = true) →
      (∀ m, m < bs.length → numeralC (k + m + 1) ≠ [] ∧
        ∀ c ∈ numeralC (k + m + 1), isDigit c = true) →
      (r = [] ∨ ∃ d rs, r = d :: rs ∧ isDigit d = true) →
      searchStrict i (joinFrom k bs ++ r) = searchStrict i r := by
  intro bs
  induction bs with
  | nil =>
    intro k r _ _ _ _
    rw [show joinFrom k [] = [] from rfl, List.nil_append]
  | cons b bs' ih =>
    intro k r hsafe hgood hnum hr
    have hj : joinFrom k (b :: bs') ++ r =
        headerC k ++ (b ++ (joinFrom (k + 1) bs' ++ r)) := by
      simp [joinFrom, List.append_assoc]
    rw [hj]
    rw [searchStrict_append_none i (headerC k) _
      (fun u hu hne => headerSafe_skip (by simpa using hsafe 0 (by simp)) hni hnd u hu hne _)]
    rw [searchStrict_append_none i b _ ?_]
    · refine ih (k + 1) r (fun m hm => ?_) (fun b2 hb2 => hgood b2 (by simp [hb2]))
        (fun m hm => ?_) hr
      · have := hsafe (m + 1) (by simpa using Nat.succ_lt_succ hm)
        rwa [show k + (m + 1) = k + 1 + m by omega] at this
      · have := hnum (m + 1) (by simpa using Nat.succ_lt_succ hm)
        rwa [show k + (m + 1) + 1 = k + 1 + m + 1 by omega] at this
    · intro u hu hne
      apply parseStrict_none_of_numDotWs
      have hbg := bodyGoodB_spec (hgood b (by simp))
      apply numDotWs_suffix_junction hni hnd hne
      · rw [suffix_getLast? hu hne]
        exact hbg.2.1
      · cases bs' with
        | nil =>
          rw [show joinFrom (k + 1) [] = [] from rfl, List.nil_append]
          exact hr
        | cons b2 bs'' =>
          right
          obtain ⟨hn1, hd1⟩ := hnum 0 (by simp)
          cases hn : numeralC (k + 0 + 1) with
          | nil => exact absurd hn hn1
          | cons d ds =>
            refine ⟨d, ds ++ '.' :: ' ' :: titleC (k + 1) ++
              (b2 ++ joinFrom (k + 1 + 1) bs'' ++ r), ?_, ?_⟩
            · show joinFrom (k + 1) (b2 :: bs'') ++ r = _
              simp only [joinFrom, headerC]
              rw [show k + 0 + 1 = k + 1 by omega] at hn
              rw [hn]
              simp [List.append_assoc]
            · apply hd1
              rw [hn]
              simp
      · exact hbg.2.2 u hu

theorem joinFrom_split : ∀ (m : Nat) (bs : List (List Char)) (k : Nat), m < bs.length →
    joinFrom k bs =
      joinFrom k (bs.take m) ++
        (headerC (k + m) ++ (bs.getD m [] ++ joinFrom (k + m + 1) (bs.drop (m + 1)))) := by
  intro m
  induction m with
  | zero =>
    intro bs k h
    cases bs with
    | nil => simp at h
    | cons b bs' =>
      simp [joinFrom, List.append_assoc]
  | succ m' ihm =>
    intro bs k h
    cases bs with
    | nil => simp at h
    | cons b bs' =>
      have h' : m' < bs'.length := by simpa using h
      rw [show joinFrom k (b :: bs') = headerC k ++ (b ++ joinFrom (k + 1) bs') by
        simp [joinFrom, List.append_assoc]]
      rw [ihm bs' (k + 1) h']
      rw [show (b :: bs').take (m' + 1) = b :: bs'.take m' from rfl]
      rw [show (b :: bs').getD (m' + 1) [] = bs'.getD m' [] from rfl]
      rw [show (b :: bs').drop (m' + 1 + 1) = bs'.drop (m' + 1) from rfl]
      rw [show joinFrom k (b :: bs'.take m') = headerC k ++ (b ++ joinFrom (k + 1) (bs'.take m')) by
        simp [joinFrom, List.append_assoc]]
      rw [show k + 1 + m' = k + (m' + 1) by omega]
      simp [List.append_assoc]

theorem titleOfK_header (i : Nat) (hti : titleOkB i = true) (hnl : '\n' ∉ titleC i)
    (cap : List Char) (hcap : cap = [] ∨ ∃ ct, cap = '\n' :: ct) :
    titleOfK (numeralC i) (headerC i ++ cap) = titleC i := by
  unfold titleOfK titleParse
  have hp : parseNumDot (numeralC i) (headerC i ++ cap) = some (' ' :: (titleC i ++ cap)) :=
    (parseNumDot_iff _ _ _).mpr (by simp [headerC])
  rw [hp]
  have hcapstop : lineStop cap = true := by
    rcases hcap with rfl | ⟨ct, rfl⟩
    · rfl
    · rfl
  have hcapture : captureUpTo lineStop (titleC i ++ cap) = titleC i := by
    unfold captureUpTo
    rw [captureSplit_of_stops lineStop (titleC i) cap ?_ hcapstop]
    intro u hu hne
    cases u with
    | nil => exact absurd rfl hne
    | cons c u' =>
      have hc : c ∈ titleC i := hu.sublist.subset (by simp)
      have : c ≠ '\n' := fun he => hnl (he ▸ hc)
      simp [lineStop, this]
  unfold titleOkB at hti
  cases hT : titleC i with
  | nil => rw [hT] at hti; simp at hti
  | cons t0 ttl =>
    have ht0 : isWs t0 = false := by
      rw [hT] at hti
      simpa using hti
    show (match wsStarB (fun s' => some (captureUpTo lineStop s')) ((t0 :: ttl) ++ cap) with
      | some t => t
      | none => get_default_section_title (numeralC i)) = t0 :: ttl
    rw [List.cons_append]
    unfold wsStarB
    rw [if_neg (by simp [ht0])]
    rw [hT] at hcapture
    rw [List.cons_append] at hcapture
    rw [hcapture]

theorem bodyOfRaw_header (i : Nat) (hnl : '\n' ∉ headerC i)
    (cap : List Char) (hcap : cap = [] ∨ ∃ ct, cap = '\n' :: ct) :
    bodyOfRaw (headerC i ++ cap) = pyStrip cap := by
  unfold bodyOfRaw
  rcases hcap with rfl | ⟨ct, rfl⟩
  · rw [List.append_nil, splitFirstNL_no_nl hnl]
    rfl
  · rw [splitFirstNL_append ct hnl]
    show pyStrip ct = pyStrip ('\n' :: ct)
    rw [pyStrip_cons_ws (by decide)]

theorem headerC_digit_head (j : Nat) (hj : j < 18) (X : List Char) :
    ∃ d rs, headerC j ++ X = d :: rs ∧ isDigit d = true := by
  obtain ⟨hn, hd⟩ := numerals_digits j hj
  cases hnn : numeralC j with
  | nil => exact absurd hnn hn
  | cons d ds =>
    refine ⟨d, ds ++ '.' :: ' ' :: titleC j ++ X, ?_, hd d (by rw [hnn]; simp)⟩
    simp [headerC, hnn, List.append_assoc]

theorem sectionRaw_of_wf (bs : List (List Char)) (hlen : bs.length = 16)
    (hgood : ∀ b ∈ bs, bodyGoodB b = true) (i : Nat) (h1 : 1 ≤ i) (h16 : i ≤ 16) :
    sectionRawC i (joinFrom 1 bs) =
      headerC i ++ (if i = 16 then (bs.getD 15 []).dropLast else bs.getD (i - 1) []) := by
  obtain ⟨hni, hnd⟩ := numerals_digits i (by omega)
  have hm : i - 1 < bs.length := by omega
  have hmem : bs.getD (i - 1) [] ∈ bs := by
    rw [List.getD_eq_getElem bs [] hm]
    exact List.getElem_mem hm
  have hgB := bodyGoodB_spec (hgood _ hmem)
  have hsplit := joinFrom_split (i - 1) bs 1 hm
  rw [show 1 + (i - 1) = i by omega] at hsplit
  rw [show i - 1 + 1 = i by omega] at hsplit
  have hX : searchStrict i (joinFrom 1 bs) =
      some (captureUpTo (stopStrict i)
        (bs.getD (i - 1) [] ++ joinFrom (i + 1) (bs.drop i))) := by
    rw [hsplit]
    rw [searchStrict_skip i hni hnd (bs.take (i - 1)) 1 _ ?_ ?_ ?_ ?_]
    · obtain ⟨d, rs, heq, _⟩ := headerC_digit_head i (by omega)
        (bs.getD (i - 1) [] ++ joinFrom (i + 1) (bs.drop i))
      exact searchStrict_of_parse (by rw [heq]; simp)
        (parseStrict_at_header i (titles_ok i (by omega) h1) _)
    · intro m hmlt
      rw [List.length_take] at hmlt
      exact headers_safe i (by omega) (1 + m) (by omega) h1 (by omega) (by omega)
    · intro b hb
      exact hgood b (List.take_subset _ _ hb)
    · intro m _
      exact numerals_digits (1 + m + 1) (by rw [List.length_take] at *; omega)
    · obtain ⟨d, rs, heq, hd⟩ := headerC_digit_head i (by omega)
        (bs.getD (i - 1) [] ++ joinFrom (i + 1) (bs.drop i))
      exact Or.inr ⟨d, rs, heq, hd⟩
  by_cases hi : i = 16
  · subst hi
    have hdrop : bs.drop 16 = [] := by
      have : bs.length ≤ 16 := by omega
      simpa using List.drop_eq_nil_of_le (by omega)
    rw [hdrop] at hX
    rw [show joinFrom 17 [] = [] from rfl, List.append_nil] at hX
    have hcap : captureUpTo (stopStrict 16) (bs.getD 15 []) = (bs.getD 15 []).dropLast := by
      unfold captureUpTo
      rw [captureSplit_end (stopStrict 16) (bs.getD 15 []) hgB.2.1 (by decide) ?_]
      intro u hu hne hne1
      have hjun : numDotWs (numeralC 17) u = false := by
        have := numDotWs_suffix_junction (numerals_digits 17 (by omega)).1
          (numerals_digits 17 (by omega)).2 hne
          (by rw [suffix_getLast? hu hne]; exact hgB.2.1)
          (Or.inl rfl) (hgB.2.2 u hu)
        rwa [List.append_nil] at this
      unfold stopStrict
      rw [hjun, dollarAt_false_of_ne hne hne1]
      rfl
    rw [hcap] at hX
    unfold sectionRawC
    rw [hX]
    simp [headerC, List.append_assoc]
  · have hi15 : i ≤ 15 := by omega
    have hilt : i < bs.length := by omega
    have hdrop : bs.drop i = bs[i] :: bs.drop (i + 1) := List.drop_eq_getElem_cons hilt
    rw [hdrop] at hX
    rw [show joinFrom (i + 1) (bs[i] :: bs.drop (i + 1)) =
        headerC (i + 1) ++ (bs[i] ++ joinFrom (i + 1 + 1) (bs.drop (i + 1))) by
      simp [joinFrom, List.append_assoc]] at hX
    have hcap : captureUpTo (stopStrict i)
        (bs.getD (i - 1) [] ++ (headerC (i + 1) ++
          (bs[i] ++ joinFrom (i + 1 + 1) (bs.drop (i + 1))))) = bs.getD (i - 1) [] := by
      unfold captureUpTo
      rw [captureSplit_of_stops (stopStrict i) _ _ ?_ (stopStrict_at_header i _)]
      intro u hu hne
      have hjun : numDotWs (numeralC (i + 1))
          (u ++ (headerC (i + 1) ++ (bs[i] ++ joinFrom (i + 1 + 1) (bs.drop (i + 1))))) = false := by
        apply numDotWs_suffix_junction (numerals_digits (i + 1) (by omega)).1
          (numerals_digits (i + 1) (by omega)).2 hne
          (by rw [suffix_getLast? hu hne]; exact hgB.2.1)
        · obtain ⟨d, rs, heq, hd⟩ := headerC_digit_head (i + 1) (by omega)
            (bs[i] ++ joinFrom (i + 1 + 1) (bs.drop (i + 1)))
          exact Or.inr ⟨d, rs, heq, hd⟩
        · exact hgB.2.2 u hu
      have hdol : dollarAt
          (u ++ (headerC (i + 1) ++ (bs[i] ++ joinFrom (i + 1 + 1) (bs.drop (i + 1))))) = false := by
        apply dollarAt_long
        obtain ⟨d, rs, heq, _⟩ := headerC_digit_head (i + 1) (by omega)
          (bs[i] ++ joinFrom (i + 1 + 1) (bs.drop (i + 1)))
        rw [heq]
        cases u with
        | nil => exact absurd rfl hne
        | cons c u' => simp; omega
      unfold stopStrict
      rw [hjun, hdol]
      rfl
    rw [hcap] at hX
    unfold sectionRawC
    rw [hX]
    rw [if_neg hi]
    simp [headerC, List.append_assoc]

/-- C2: for every input assembled from the sixteen canonical headers
`1. Introduction` .. `16. Points Requiring Further Clarification` in order,
each followed by a body that starts and ends with a newline and contains no
ordinal-like marker at a line start, the extraction of
`parse_and_add_content` returns, for every ordinal i in 1..16, a section
whose key is the numeral of i, whose title exactly equals the canonical
default title of section i, and whose body exactly equals the text lying
between header i and header i+1 (between header 16 and the end of the text
for i = 16), trimmed of surrounding whitespace. -/
theorem c2_wellformed_extraction (bs : List (List Char)) (hlen : bs.length = 16)
    (hgood : ∀ b ∈ bs, bodyGoodB b = true) :
    sectionsDataC (joinFrom 1 bs) =
      (List.range' 1 16).map
        (fun i => (numeralC i, titleC i, pyStrip (bs.getD (i - 1) []))) := by
  rw [sectionsData_eq]
  apply List.map_congr_left
  intro i hi
  rw [List.mem_range'_1] at hi
  have h1 : 1 ≤ i := hi.1
  have h16 : i ≤ 16 := by omega
  have hraw := sectionRaw_of_wf bs hlen hgood i h1 h16
  have hmem : bs.getD (i - 1) [] ∈ bs := by
    rw [List.getD_eq_getElem bs [] (by omega)]
    exact List.getElem_mem (by omega)
  have hgB := bodyGoodB_spec (hgood _ hmem)
  obtain ⟨hnlH, hnlT⟩ := headers_no_nl i (by omega) h1
  have hcap : (if i = 16 then (bs.getD 15 []).dropLast else bs.getD (i - 1) []) = [] ∨
      ∃ ct, (if i = 16 then (bs.getD 15 []).dropLast else bs.getD (i - 1) [])
        = '\n' :: ct := by
    by_cases hi16 : i = 16
    · subst hi16
      rw [if_pos rfl]
      have e : (16 : Nat) - 1 = 15 := rfl
      rw [e] at hgB
      cases hB : bs.getD 15 [] with
      | nil => exact Or.inl (by simp)
      | cons c t =>
        have hc : c = '\n' := by
          have hh := hgB.1
          rw [hB] at hh
          simpa using hh
        subst hc
        cases t with
        | nil => exact Or.inl (by simp)
        | cons c2 t2 => exact Or.inr ⟨(c2 :: t2).dropLast, rfl⟩
    · rw [if_neg hi16]
      cases hB : bs.getD (i - 1) [] with
      | nil => exact Or.inl rfl
      | cons c t =>
        have hc : c = '\n' := by
          have hh := hgB.1
          rw [hB] at hh
          simpa using hh
        exact Or.inr ⟨t, by rw [hc]⟩
  rw [hraw, titleOfK_header i (titles_ok i (by omega) h1) hnlT _ hcap,
    bodyOfRaw_header i hnlH _ hcap]
  by_cases hi16 : i = 16
  · subst hi16
    rw [if_pos rfl]
    have e : (16 : Nat) - 1 = 15 := rfl
    rw [e] at hgB ⊢
    rw [pyStrip_dropLast hgB.2.1]
  · rw [if_neg hi16]

theorem c2_witness :
    (List.replicate 16 ("\nSome body\n").data).length = 16 ∧
    (∀ b ∈ List.replicate 16 ("\nSome body\n").data, bodyGoodB b = true) ∧
    sectionsDataC (joinFrom 1 (List.replicate 16 ("\nSome body\n").data)) =
      (List.range' 1 16).map
        (fun i => (numeralC i, titleC i,
          pyStrip ((List.replicate 16 ("\nSome body\n").data).getD (i - 1) []))) :=
  ⟨by decide, by decide,
    c2_wellformed_extraction (List.replicate 16 ("\nSome body\n").data)
      (by decide) (by decide)⟩
